import Mathlib

/-!
# alpaka: host `memSet` and the OpenACC device registry

A shallow embedding of

* `include/alpaka/host/mem/MemSet.hpp` : `MemSet<TDim, MemSpaceHost>::memSet`,
* `include/alpaka/dev/DevOacc.hpp` : `DevOaccImpl`, `DevOacc`, `GetDevByIdx<PltfOacc>`,

followed by the properties established for them.

Conventions of the embedding.

* Memory is addressed by the byte offset from `pDstNative`; a memory is a total
  map from offsets to bytes, so that a write past the logical rows (the pitch
  bytes) is observable.
* Extents, pitches and byte offsets are natural numbers.  The destination is an
  existing allocation, so `pitch * height * depth` is a representable size and
  none of the products formed by `memSet` wraps.
* The narrowing casts of `DevOacc.hpp` (`static_cast<int>`, `static_cast<unsigned>`)
  are modelled with explicit wrap-around.
* A call of the device lookup ends in an `Outcome`: a value, an exception, or the
  death of the process (the constructor of `DevOaccImpl` writes through the
  pointer returned by `acc_malloc` without checking it).
* Concurrent requests are modelled by interleaving: every access of a thread to
  the shared statics is one atomic step, and a schedule names the thread that
  steps next.
-/

namespace alpaka

/-! ## Host memory -/

/-- A byte, `std::uint8_t`. -/
abbrev Byte := Fin 256

/-- Host memory seen from `pDstNative`: offset in bytes to stored byte. -/
abbrev Mem := Nat → Byte

/-- Conversion of the `int` argument of `std::memset` to `unsigned char`. -/
def toUChar (ch : Int) : Byte := ⟨(ch % 256).toNat % 256, Nat.mod_lt _ (by decide)⟩

/-- Models `std::memset(dest, ch, count)`: the `count` bytes starting at offset `dest`
are set to `(unsigned char) ch`. -/
def std_memset (mem : Mem) (dest : Nat) (ch : Int) (count : Nat) : Mem :=
  fun a => if dest ≤ a ∧ a < dest + count then toUChar ch else mem a

/-- The loop `for(UInt i(0); i < n; ++i) body(i)` acting on a state. -/
def forLoop {σ : Type} : Nat → (Nat → σ → σ) → σ → σ
  | 0, _, s => s
  | n + 1, body, s => body n (forLoop n body s)

/-- What `memSet` reads from its destination `memBufDst`: the element size, the
extents, the pitch, and the extents of the underlying buffer base. -/
structure MemBuf where
  /-- Models `sizeof(Elem)` -/
  elemSize : Nat
  /-- Models `extent::getWidth(memBufDst)` -/
  width : Nat
  /-- Models `extent::getHeight(memBufDst)` -/
  height : Nat
  /-- Models `extent::getDepth(memBufDst)` -/
  depth : Nat
  /-- Models `mem::getPitchBytes(memBufDst)` -/
  pitchBytes : Nat
  /-- Models `extent::getWidth(mem::getMemBufBase(memBufDst))` -/
  baseWidth : Nat
  /-- Models `extent::getHeight(mem::getMemBufBase(memBufDst))` -/
  baseHeight : Nat
deriving DecidableEq, Repr

/-- The `extents` argument of `memSet`. -/
structure Extents where
  width : Nat
  height : Nat
  depth : Nat
deriving DecidableEq, Repr

/-- Models `uiExtentWidthBytes` -/
def uiExtentWidthBytes (memBufDst : MemBuf) (extents : Extents) : Nat :=
  extents.width * memBufDst.elemSize

/-- Models `uiDstSliceSizeBytes` -/
def uiDstSliceSizeBytes (memBufDst : MemBuf) : Nat :=
  memBufDst.pitchBytes * memBufDst.height

/-- The four `assert`s of `memSet`. -/
def memSetAsserts (memBufDst : MemBuf) (extents : Extents) : Prop :=
  extents.width ≤ memBufDst.width ∧ extents.height ≤ memBufDst.height ∧
    extents.depth ≤ memBufDst.depth ∧
    uiExtentWidthBytes memBufDst extents ≤ memBufDst.pitchBytes

instance (memBufDst : MemBuf) (extents : Extents) :
    Decidable (memSetAsserts memBufDst extents) :=
  inferInstanceAs (Decidable (extents.width ≤ memBufDst.width ∧
    extents.height ≤ memBufDst.height ∧ extents.depth ≤ memBufDst.depth ∧
    uiExtentWidthBytes memBufDst extents ≤ memBufDst.pitchBytes))

/-- The condition of the outer `if`: the whole memory is set at once. -/
def wholeCond (memBufDst : MemBuf) (extents : Extents) : Bool :=
  (extents.width == memBufDst.width) && (extents.height == memBufDst.height)
    && (extents.width == memBufDst.baseWidth) && (extents.height == memBufDst.baseHeight)

/-- The condition of the inner `if`: whole slices are set at once. -/
def sliceCond (memBufDst : MemBuf) (extents : Extents) : Bool :=
  (extents.width == memBufDst.width) && (extents.width == memBufDst.baseWidth)

/-- The single `std::memset` of the whole-memory branch. -/
def fillWhole (memBufDst : MemBuf) (iByte : Int) (extents : Extents) (mem : Mem) : Mem :=
  std_memset mem 0 iByte (uiDstSliceSizeBytes memBufDst * extents.depth)

/-- The `std::memset` of one slice `z` in the slice branch. -/
def fillSlice (memBufDst : MemBuf) (iByte : Int) (extents : Extents) (z : Nat) (mem : Mem) :
    Mem :=
  std_memset mem (z * uiDstSliceSizeBytes memBufDst) iByte
    (memBufDst.pitchBytes * extents.height)

/-- The row loop `for(UInt y(0); y < uiExtentHeight; ++y)` of slice `z`. -/
def fillRows (memBufDst : MemBuf) (iByte : Int) (extents : Extents) (z : Nat) (mem : Mem) :
    Mem :=
  forLoop extents.height
    (fun y m =>
      std_memset m (y * memBufDst.pitchBytes + z * uiDstSliceSizeBytes memBufDst) iByte
        (uiExtentWidthBytes memBufDst extents))
    mem

/-- The body of `memSet` after the assertions: the branch selection and the fills. -/
def memSetFill (memBufDst : MemBuf) (byte : Byte) (extents : Extents) (mem : Mem) : Mem :=
  let iByte : Int := (byte.val : Int)
  if wholeCond memBufDst extents then
    fillWhole memBufDst iByte extents mem
  else
    forLoop extents.depth
      (fun z m =>
        if sliceCond memBufDst extents then
          fillSlice memBufDst iByte extents z m
        else
          fillRows memBufDst iByte extents z m)
      mem

/-- Models `MemSet<TDim, MemSpaceHost>::memSet(memBufDst, byte, extents)`.  The result
is `none` when one of the assertions fails, and otherwise the memory after the
call. -/
def memSet (memBufDst : MemBuf) (byte : Byte) (extents : Extents) (mem : Mem) : Option Mem :=
  if memSetAsserts memBufDst extents then
    some (memSetFill memBufDst byte extents mem)
  else
    none

/-- The overload `memSet(memBufDst, byte, extents, stream)` taking a host stream:
it calls the overload without one. -/
def memSetStream {StreamHost : Type} (memBufDst : MemBuf) (byte : Byte) (extents : Extents)
    (_stream : StreamHost) (mem : Mem) : Option Mem :=
  memSet memBufDst byte extents mem

/-- The three fill strategies of `memSet`, for forcing one of them. -/
inductive Tier where
  | whole
  | slices
  | rows
deriving DecidableEq, Repr

/-- The fill performed when the branch selection of `memSet` is replaced by a
fixed choice of strategy. -/
def memSetForced (t : Tier) (memBufDst : MemBuf) (byte : Byte) (extents : Extents)
    (mem : Mem) : Mem :=
  let iByte : Int := (byte.val : Int)
  match t with
  | .whole => fillWhole memBufDst iByte extents mem
  | .slices => forLoop extents.depth (fun z m => fillSlice memBufDst iByte extents z m) mem
  | .rows => forLoop extents.depth (fun z m => fillRows memBufDst iByte extents z m) mem

/-- The offset lies in one of the requested row segments
`[z * (pitch * dstHeight) + y * pitch, + extent width * element size)`. -/
def inRowSegment (memBufDst : MemBuf) (extents : Extents) (a : Nat) : Prop :=
  ∃ z y x, z < extents.depth ∧ y < extents.height ∧
    x < extents.width * memBufDst.elemSize ∧
    a = z * (memBufDst.pitchBytes * memBufDst.height) + y * memBufDst.pitchBytes + x

/-- The offset lies in one of the slice spans
`[z * (pitch * dstHeight), + pitch * extent height)` with `z <` extent depth. -/
def inSliceSpan (memBufDst : MemBuf) (extents : Extents) (a : Nat) : Prop :=
  ∃ z, z < extents.depth ∧ z * (memBufDst.pitchBytes * memBufDst.height) ≤ a ∧
    a < z * (memBufDst.pitchBytes * memBufDst.height) + memBufDst.pitchBytes * extents.height

/-- The region written by the row loop of slice `z`. -/
def rowsRegion (memBufDst : MemBuf) (extents : Extents) (z a : Nat) : Prop :=
  ∃ y, y < extents.height ∧
    y * memBufDst.pitchBytes + z * uiDstSliceSizeBytes memBufDst ≤ a ∧
    a < y * memBufDst.pitchBytes + z * uiDstSliceSizeBytes memBufDst
      + uiExtentWidthBytes memBufDst extents

/-- The region written by the `std::memset` of slice `z`. -/
def sliceRegion (memBufDst : MemBuf) (extents : Extents) (z a : Nat) : Prop :=
  z * uiDstSliceSizeBytes memBufDst ≤ a ∧
    a < z * uiDstSliceSizeBytes memBufDst + memBufDst.pitchBytes * extents.height

/-- The tier taken by `memSet`. -/
def selectedTier (memBufDst : MemBuf) (extents : Extents) : Tier :=
  if wholeCond memBufDst extents then .whole
  else if sliceCond memBufDst extents then .slices
  else .rows

/-- The destination of the worked example: 4 rows of 10 one-byte elements,
16 bytes of pitch, depth 1, and a buffer base of the same width and height. -/
def exampleBuf : MemBuf :=
  { elemSize := 1, width := 10, height := 4, depth := 1, pitchBytes := 16,
    baseWidth := 10, baseHeight := 4 }

/-- The extents of the worked example: the full 4 x 10 region. -/
def exampleExtents : Extents := { width := 10, height := 4, depth := 1 }

/-- A destination of 2 rows of 3 one-byte elements with 4 bytes of pitch. -/
def paddedBuf : MemBuf :=
  { elemSize := 1, width := 3, height := 2, depth := 1, pitchBytes := 4,
    baseWidth := 3, baseHeight := 2 }

/-- The full 2 x 3 region of `paddedBuf`. -/
def paddedExtents : Extents := { width := 3, height := 2, depth := 1 }

/-- A memory holding zero everywhere. -/
def zeroMem : Mem := fun _ => 0

/-- A sub-region 8 elements wide of `exampleBuf`. -/
def narrowExtents : Extents := { width := 8, height := 4, depth := 1 }

/-- A destination of 2 slices of 3 rows of 4 one-byte elements, whose pitch is
its row width. -/
def packedBuf : MemBuf :=
  { elemSize := 1, width := 4, height := 3, depth := 2, pitchBytes := 4,
    baseWidth := 4, baseHeight := 3 }

/-- The first 2 rows of each slice of `packedBuf`. -/
def packedExtents : Extents := { width := 4, height := 2, depth := 2 }

/-- A call `std::memset(pDstNative + dest, iByte, count)`, recorded as the pair
of `dest` and `count`. -/
abbrev MemsetCall := Nat × Nat

/-- The calls of `std::memset` that a fill strategy of `memSet` makes, in order:
the branches and loops of `memSetForced`, with every call recorded instead of
performed. -/
def memSetCallsForced (t : Tier) (memBufDst : MemBuf) (extents : Extents) : List MemsetCall :=
  match t with
  | .whole => [(0, uiDstSliceSizeBytes memBufDst * extents.depth)]
  | .slices =>
    forLoop extents.depth
      (fun z calls =>
        calls ++ [(z * uiDstSliceSizeBytes memBufDst, memBufDst.pitchBytes * extents.height)])
      []
  | .rows =>
    forLoop extents.depth
      (fun z calls =>
        forLoop extents.height
          (fun y calls =>
            calls ++ [(y * memBufDst.pitchBytes + z * uiDstSliceSizeBytes memBufDst,
              uiExtentWidthBytes memBufDst extents)])
          calls)
      []

/-- The calls of `std::memset` made by `memSet`. -/
def memSetCalls (memBufDst : MemBuf) (extents : Extents) : List MemsetCall :=
  memSetCallsForced (selectedTier memBufDst extents) memBufDst extents

/-- Performing recorded calls of `std::memset` with the value `iByte`, in order. -/
def replayMemset (iByte : Int) (calls : List MemsetCall) (mem : Mem) : Mem :=
  calls.foldl (fun m c => std_memset m c.1 iByte c.2) mem

/-! ## The OpenACC device: queue registry -/

/-- Identity of a queue object (of its shared control block). -/
abbrev QueueId := Nat

/-- A `std::shared_ptr<IGenericThreadsQueue<DevOacc>>`: null, or owning a queue. -/
abbrev SharedPtr := Option QueueId

/-- A `std::weak_ptr<IGenericThreadsQueue<DevOacc>>`: empty, or observing a queue. -/
abbrev WeakPtr := Option QueueId

/-- Models `std::weak_ptr::lock()`, given the queues that have been destroyed: an owning
pointer when the observed queue still exists, null otherwise. -/
def WeakPtr.lock (destroyed : List QueueId) (w : WeakPtr) : SharedPtr :=
  match w with
  | none => none
  | some q => if q ∈ destroyed then none else some q

/-- The queue observed by `w` still exists: `w.lock()` is not null. -/
def WeakPtr.alive (destroyed : List QueueId) (w : WeakPtr) : Bool :=
  (WeakPtr.lock destroyed w).isSome

/-- The data members of `oacc::detail::DevOaccImpl` (the mutex apart). -/
structure DevOaccImpl where
  /-- Models `std::vector<std::weak_ptr<...>> mutable m_queues` -/
  m_queues : List WeakPtr
  /-- Models `acc_device_t m_deviceType` -/
  m_deviceType : Nat
  /-- Models `int m_iDevice` -/
  m_iDevice : Int
  /-- Models `std::uint32_t* m_gridsLock` (a device address, `0` for `nullptr`) -/
  m_gridsLock : Nat
deriving DecidableEq, Repr

/-- Models `DevOaccImpl::iDevice()` -/
def DevOaccImpl.iDevice (impl : DevOaccImpl) : Int := impl.m_iDevice

/-- The loop of `getAllExistingQueues`.  `it` is the position of the iterator in
`m_queues`, `vspQueues` the result built so far.  Each iteration takes one unit
of fuel; `none` is returned when the fuel runs out before `it` reaches the end. -/
def getAllExistingQueuesLoop (destroyed : List QueueId) :
    Nat → Nat → List WeakPtr → List SharedPtr → Option (List SharedPtr × List WeakPtr)
  | 0, it, m_queues, vspQueues =>
    if it < m_queues.length then none else some (vspQueues, m_queues)
  | fuel + 1, it, m_queues, vspQueues =>
    match m_queues[it]? with
    | none => some (vspQueues, m_queues)
    | some w =>
      match WeakPtr.lock destroyed w with
      | some q => getAllExistingQueuesLoop destroyed fuel (it + 1) m_queues (vspQueues ++ [some q])
      | none => getAllExistingQueuesLoop destroyed fuel it (m_queues.eraseIdx it) vspQueues

/-- Models `DevOaccImpl::getAllExistingQueues()`: the returned vector and the object
afterwards (`m_queues` is `mutable`).  The loop is given `m_queues.size()` units
of fuel. -/
def DevOaccImpl.getAllExistingQueues (destroyed : List QueueId) (impl : DevOaccImpl) :
    Option (List SharedPtr × DevOaccImpl) :=
  match getAllExistingQueuesLoop destroyed impl.m_queues.length 0 impl.m_queues [] with
  | some (vspQueues, m_queues) => some (vspQueues, { impl with m_queues := m_queues })
  | none => none

/-- Models `DevOaccImpl::registerQueue(spQueue)`: `m_queues.push_back(std::move(spQueue))`. -/
def DevOaccImpl.registerQueue (impl : DevOaccImpl) (spQueue : SharedPtr) : DevOaccImpl :=
  { impl with m_queues := impl.m_queues ++ [spQueue] }

/-- The OpenACC device handle `DevOacc`; `m_devOaccImpl` is the implementation
object the handle refers to. -/
structure DevOacc where
  m_devOaccImpl : DevOaccImpl
deriving DecidableEq, Repr

/-- Models `DevOacc::operator==` -/
def DevOacc.eq (lhs rhs : DevOacc) : Bool :=
  lhs.m_devOaccImpl.iDevice == rhs.m_devOaccImpl.iDevice

/-- Models `DevOacc::operator!=` -/
def DevOacc.ne (lhs rhs : DevOacc) : Bool :=
  !(DevOacc.eq lhs rhs)

/-- Models `DevOacc::iDevice()` -/
def DevOacc.iDevice (dev : DevOacc) : Int := dev.m_devOaccImpl.iDevice

/-- Models `DevOacc::getAllQueues()`: forwards to the implementation. -/
def DevOacc.getAllQueues (destroyed : List QueueId) (dev : DevOacc) :
    Option (List SharedPtr × DevOacc) :=
  match dev.m_devOaccImpl.getAllExistingQueues destroyed with
  | some (vspQueues, impl) => some (vspQueues, { m_devOaccImpl := impl })
  | none => none

/-- Models `DevOacc::registerQueue(spQueue)`: forwards to the implementation. -/
def DevOacc.registerQueue (dev : DevOacc) (spQueue : SharedPtr) : DevOacc :=
  { m_devOaccImpl := dev.m_devOaccImpl.registerQueue spQueue }

/-- What can happen to the queue registry of one device. -/
inductive QueueEvent where
  /-- Models `registerQueue(spQueue)` -/
  | registerQueue (spQueue : SharedPtr)
  /-- Models `getAllQueues()` -/
  | getAllQueues
  /-- the queue object `q` is destroyed (its last owner went away) -/
  | destroy (q : QueueId)
deriving DecidableEq, Repr

/-- One device together with the set of destroyed queues. -/
structure QueueWorld where
  dev : DevOacc
  destroyed : List QueueId
deriving DecidableEq, Repr

/-- The effect of one event; `none` only if `getAllQueues` does not return. -/
def QueueWorld.step (w : QueueWorld) : QueueEvent → Option QueueWorld
  | .registerQueue spQueue => some { w with dev := w.dev.registerQueue spQueue }
  | .getAllQueues =>
    match w.dev.getAllQueues w.destroyed with
    | some (_, dev) => some { w with dev := dev }
    | none => none
  | .destroy q => some { w with destroyed := q :: w.destroyed }

/-- The effect of a sequence of events. -/
def QueueWorld.run (w : QueueWorld) : List QueueEvent → Option QueueWorld
  | [] => some w
  | e :: es =>
    match w.step e with
    | some w1 => QueueWorld.run w1 es
    | none => none

/-- A device with an empty queue registry. -/
def exampleDev : DevOacc :=
  { m_devOaccImpl := { m_queues := [], m_deviceType := 0, m_iDevice := 0, m_gridsLock := 0 } }

/-- A world in which queue `7` is registered on `exampleDev` and no queue has
been destroyed. -/
def exampleWorld : QueueWorld :=
  { dev := exampleDev.registerQueue (some 7), destroyed := [] }

/-! ## The OpenACC device: implementation registry and lookup -/

/-- Exceptions thrown by the device lookup. -/
inductive Exn where
  /-- Models `std::runtime_error(what)` -/
  | runtime_error (what : String)
  /-- Models `std::out_of_range`, thrown by `std::vector::at` -/
  | out_of_range
deriving DecidableEq, Repr

/-- Models `static_cast<unsigned>(i)` for an `int` (32 bits). -/
def castUnsigned (i : Int) : Nat := (i % 4294967296).toNat

/-- Models `static_cast<int>(x)` for a `std::size_t` (`int` of 32 bits, wrapping). -/
def castInt (x : Nat) : Int :=
  if x % 4294967296 < 2147483648 then ((x % 4294967296 : Nat) : Int)
  else ((x % 4294967296 : Nat) : Int) - 4294967296

/-- The values of type `int`. -/
def isInt (i : Int) : Prop := -2147483648 ≤ i ∧ i < 2147483648

instance (i : Int) : Decidable (isInt i) :=
  inferInstanceAs (Decidable (-2147483648 ≤ i ∧ i < 2147483648))

/-- What the constructor of `DevOaccImpl` obtains from the OpenACC runtime. -/
structure OpenAcc where
  /-- the result of `acc_get_device_type()` -/
  acc_get_device_type : Nat
  /-- the pointer returned by `acc_malloc` when `k` implementations were
  constructed before (`0` for `nullptr`) -/
  acc_malloc : Nat → Nat

/-- The function-local statics of `DevOacc::device` (the mutex apart), and a log
of the constructor calls made so far. -/
structure Devices where
  /-- Models `static std::vector<std::unique_ptr<DevOaccImpl>> devices` -/
  devices : List (Option DevOaccImpl)
  /-- the argument of every call of the constructor `DevOaccImpl(iDevice)`, in order -/
  constructed : List Int
deriving DecidableEq, Repr

/-- The statics when first initialised: `devices(getDevCount<PltfOacc>())`, that
is `devCount` null pointers. -/
def Devices.init (devCount : Nat) : Devices :=
  { devices := List.replicate devCount none, constructed := [] }

/-- How a call ends: it returns a value, it throws an exception, or the process
dies. -/
inductive Outcome (α : Type) where
  | ok (a : α)
  | error (e : Exn)
  | crash

/-- The object that the constructor `DevOaccImpl(iDevice)` leaves when it
completes, `k` implementations having been constructed before: the member
initialisers and the pointer returned by `acc_malloc`. -/
def DevOaccImpl.built (acc : OpenAcc) (k : Nat) (iDevice : Int) : DevOaccImpl :=
  { m_queues := [], m_deviceType := acc.acc_get_device_type, m_iDevice := iDevice,
    m_gridsLock := acc.acc_malloc k }

/-- The constructor `DevOaccImpl(iDevice)`, when `k` implementations were
constructed before.  It is `noexcept` and does not check the result of
`acc_malloc`; its loop writes `gridsLock[a] = 0u` through that pointer, so with
`nullptr` the process dies in the constructor (`none`).  The two words written
are device memory, which nothing else in these files reads. -/
def DevOaccImpl.new (acc : OpenAcc) (k : Nat) (iDevice : Int) : Option DevOaccImpl :=
  if acc.acc_malloc k = 0 then none else some (DevOaccImpl.built acc k iDevice)

/-- The assignment of `d = std::make_unique<DevOaccImpl>(iDevice)` for the slot
`idx`, once the constructor has completed with `impl`. -/
def Devices.construct (reg : Devices) (idx : Nat) (iDevice : Int) (impl : DevOaccImpl) :
    Devices :=
  { devices := reg.devices.set idx (some impl), constructed := reg.constructed ++ [iDevice] }

/-- Models `return *d` for the slot `idx`. -/
def DevOacc.deref (reg : Devices) (idx : Nat) : Outcome (Devices × DevOaccImpl) :=
  match reg.devices[idx]? with
  | some (some impl) => .ok (reg, impl)
  | _ => .crash

/-- Models `DevOacc::device(iDevice)`: the statics afterwards and the implementation
referred to by the result. -/
def DevOacc.device (acc : OpenAcc) (reg : Devices) (iDevice : Int) :
    Outcome (Devices × DevOaccImpl) :=
  let idx := castUnsigned iDevice
  match reg.devices[idx]? with
  | none => .error .out_of_range
  | some d =>
    if d.isNone then
      -- under the lock: the second check sees the same slot
      if d.isNone then
        match DevOaccImpl.new acc reg.constructed.length iDevice with
        | some impl => DevOacc.deref (Devices.construct reg idx iDevice impl) idx
        | none => .crash
      else DevOacc.deref reg idx
    else DevOacc.deref reg idx

/-- The constructor `DevOacc(iDevice)`. -/
def DevOacc.new (acc : OpenAcc) (reg : Devices) (iDevice : Int) :
    Outcome (Devices × DevOacc) :=
  match DevOacc.device acc reg iDevice with
  | .ok (reg1, impl) => .ok (reg1, { m_devOaccImpl := impl })
  | .error e => .error e
  | .crash => .crash

/-- The message of the exception of `getDevByIdx`. -/
def getDevByIdxMessage (devIdx devCount : Nat) : String :=
  "Unable to return device handle for OpenACC device with index " ++ toString devIdx
    ++ " because there are only " ++ toString devCount ++ " devices!"

/-- Models `traits::GetDevByIdx<PltfOacc>::getDevByIdx(devIdx)`, where `devCount` is the
result of `getDevCount<PltfOacc>()`. -/
def getDevByIdx (acc : OpenAcc) (devCount : Nat) (reg : Devices) (devIdx : Nat) :
    Outcome (Devices × DevOacc) :=
  if devIdx ≥ devCount then
    .error (.runtime_error (getDevByIdxMessage devIdx devCount))
  else
    DevOacc.new acc reg (castInt devIdx)

/-- A sequence of calls `device(i)`: the statics afterwards and the results. -/
def deviceRun (acc : OpenAcc) (reg : Devices) : List Int → Outcome (Devices × List DevOaccImpl)
  | [] => .ok (reg, [])
  | i :: is =>
    match DevOacc.device acc reg i with
    | .error e => .error e
    | .crash => .crash
    | .ok (reg1, d) =>
      match deviceRun acc reg1 is with
      | .error e => .error e
      | .crash => .crash
      | .ok (reg2, ds) => .ok (reg2, d :: ds)

/-- An index `iDevice` of type `int` that is in range for `devCount` devices. -/
def inRange (devCount : Nat) (iDevice : Int) : Prop :=
  0 ≤ iDevice ∧ iDevice < devCount ∧ isInt iDevice

instance (devCount : Nat) (iDevice : Int) : Decidable (inRange devCount iDevice) :=
  inferInstanceAs (Decidable (0 ≤ iDevice ∧ iDevice < devCount ∧ isInt iDevice))

/-- The states of the statics that lookups through `getDevByIdx` produce
(`device` is private and the constructor of `DevOacc` protected: `getDevByIdx`
is the way in). -/
inductive Devices.Reachable (acc : OpenAcc) (devCount : Nat) : Devices → Prop where
  | init : Devices.Reachable acc devCount (Devices.init devCount)
  | getDevByIdx (reg reg1 : Devices) (devIdx : Nat) (dev : DevOacc) :
      Devices.Reachable acc devCount reg →
      getDevByIdx acc devCount reg devIdx = .ok (reg1, dev) → Devices.Reachable acc devCount reg1

/-- What holds of the statics after any lookups through `getDevByIdx`: the vector
has `devCount` slots and a populated slot `idx` holds an implementation whose
device index is `static_cast<int>(idx)`. -/
def Devices.IndexInv (devCount : Nat) (reg : Devices) : Prop :=
  reg.devices.length = devCount ∧
    ∀ (idx : Nat) (d : DevOaccImpl), reg.devices[idx]? = some (some d) → d.m_iDevice = castInt idx

/-- The invariant of the statics of `DevOacc::device` for `devCount` devices: the
vector has `devCount` slots, no index was constructed twice, every constructed
index is in range and its slot is populated, and a populated slot holds the
implementation constructed for its own index. -/
def Devices.Inv (devCount : Nat) (reg : Devices) : Prop :=
  reg.devices.length = devCount ∧ reg.constructed.Nodup ∧
    (∀ i, i ∈ reg.constructed →
      inRange devCount i ∧ ∃ d, reg.devices[castUnsigned i]? = some (some d)) ∧
    (∀ (idx : Nat) (d : DevOaccImpl), reg.devices[idx]? = some (some d) →
      d.m_iDevice = (idx : Int) ∧ (idx : Int) ∈ reg.constructed)

/-- An OpenACC runtime for the examples. -/
def exampleAcc : OpenAcc := { acc_get_device_type := 4, acc_malloc := fun k => 4096 + 8 * k }

/-- An OpenACC runtime whose `acc_malloc` always fails (returns `nullptr`). -/
def failingAcc : OpenAcc := { acc_get_device_type := 4, acc_malloc := fun _ => 0 }

/-! ## The OpenACC device: concurrent requests -/

/-- The places of a thread inside `DevOacc::device(iDevice)`, one for each access
to the shared statics. -/
inductive Pc where
  /-- at `auto& d = devices.at(...); if(!d)`, the check made without the mutex -/
  | check1
  /-- at `std::lock_guard<std::mutex> lock(mutex)`, waiting for the mutex -/
  | lock
  /-- at the second `if(!d)`, made holding the mutex -/
  | check2
  /-- at `d = std::make_unique<DevOaccImpl>(iDevice)` -/
  | construct
  /-- at the end of the scope of the lock, where the mutex is released -/
  | unlock
  /-- at `return *d` -/
  | ret
  /-- after the return -/
  | done
  /-- after the exception of `devices.at` -/
  | threw
deriving DecidableEq, Repr

/-- A thread that called `device(iDevice)`: its argument, its place, and the
implementation referred to by the result once it has returned. -/
structure DevThread where
  iDevice : Int
  pc : Pc
  result : Option DevOaccImpl
deriving DecidableEq, Repr

/-- The threads inside `device` and what they share: the statics `devices` and
`mutex` (with the thread holding it, if any), and whether the process has died.
The accesses of the threads to the statics are interleaved, each access being
one step. -/
structure DevSystem where
  reg : Devices
  mutex : Option Nat
  threads : List DevThread
  dead : Bool
deriving DecidableEq, Repr

/-- The system with thread `t` replaced by `th`. -/
def DevSystem.setThread (s : DevSystem) (t : Nat) (th : DevThread) : DevSystem :=
  { s with threads := s.threads.set t th }

/-- The next step of the thread `t`, which is `th`, in `device`. -/
def DevSystem.stepThread (acc : OpenAcc) (s : DevSystem) (t : Nat) (th : DevThread) :
    Option DevSystem :=
  let idx := castUnsigned th.iDevice
  match th.pc with
  | .check1 =>
    match s.reg.devices[idx]? with
    | none => some (s.setThread t { th with pc := .threw })
    | some none => some (s.setThread t { th with pc := .lock })
    | some (some _) => some (s.setThread t { th with pc := .ret })
  | .lock =>
    match s.mutex with
    | none => some { s.setThread t { th with pc := .check2 } with mutex := some t }
    | some _ => none
  | .check2 =>
    match s.reg.devices[idx]? with
    | some none => some (s.setThread t { th with pc := .construct })
    | _ => some (s.setThread t { th with pc := .unlock })
  | .construct =>
    match DevOaccImpl.new acc s.reg.constructed.length th.iDevice with
    | none => some { s with dead := true }
    | some impl =>
      some { s.setThread t { th with pc := .unlock } with
        reg := Devices.construct s.reg idx th.iDevice impl }
  | .unlock => some { s.setThread t { th with pc := .ret } with mutex := none }
  | .ret =>
    match s.reg.devices[idx]? with
    | some (some impl) => some (s.setThread t { th with pc := .done, result := some impl })
    | _ => some { s with dead := true }
  | .done => none
  | .threw => none

/-- One step of the thread number `t`: `none` when there is no such thread, when
it has left `device`, when it waits for a mutex that is held, or when the
process has died. -/
def DevSystem.step (acc : OpenAcc) (s : DevSystem) (t : Nat) : Option DevSystem :=
  if s.dead then none
  else
    match s.threads[t]? with
    | none => none
    | some th => s.stepThread acc t th

/-- An interleaving: the threads named by the schedule take one step each, in
order; a thread that cannot take a step is passed over. -/
def DevSystem.run (acc : OpenAcc) (s : DevSystem) : List Nat → DevSystem
  | [] => s
  | t :: ts =>
    match s.step acc t with
    | some s1 => DevSystem.run acc s1 ts
    | none => DevSystem.run acc s ts

/-- The threads that have each just called `device` with one of the indices
`reqs`, on the initial statics. -/
def DevSystem.init (devCount : Nat) (reqs : List Int) : DevSystem :=
  { reg := Devices.init devCount, mutex := none,
    threads := reqs.map (fun i => { iDevice := i, pc := .check1, result := none }),
    dead := false }

/-- The places at which a thread holds the mutex. -/
def Pc.locked (pc : Pc) : Bool :=
  match pc with
  | .check2 => true
  | .construct => true
  | .unlock => true
  | _ => false

/-- The number of steps a thread has left at most before it has returned. -/
def Pc.remaining (pc : Pc) : Nat :=
  match pc with
  | .check1 => 6
  | .lock => 5
  | .check2 => 4
  | .construct => 3
  | .unlock => 2
  | .ret => 1
  | .done => 0
  | .threw => 0

/-- The steps all threads together have left at most. -/
def DevSystem.remaining (s : DevSystem) : Nat :=
  (s.threads.map (fun th => th.pc.remaining)).sum

/-- What holds of the thread number `t` with respect to the statics: its index
is in range; it is at a place between the lock and the unlock exactly when it
holds the mutex; at the construction its slot is empty; from the unlock on its
slot is populated; once returned, its result is what its slot holds; and it has
not thrown. -/
def DevThread.Ok (devCount : Nat) (reg : Devices) (mutex : Option Nat) (t : Nat)
    (th : DevThread) : Prop :=
  inRange devCount th.iDevice ∧ (th.pc.locked = true ↔ mutex = some t) ∧
    (th.pc = .construct → reg.devices[castUnsigned th.iDevice]? = some none) ∧
    (th.pc = .unlock ∨ th.pc = .ret →
      ∃ d, reg.devices[castUnsigned th.iDevice]? = some (some d)) ∧
    (th.pc = .done →
      ∃ d, th.result = some d ∧ reg.devices[castUnsigned th.iDevice]? = some (some d)) ∧
    th.pc ≠ .threw

/-- The invariant of the interleaved system: the invariant of the statics, the
invariant of every thread, and a holder of the mutex that is one of the threads. -/
def DevSystem.Inv (devCount : Nat) (s : DevSystem) : Prop :=
  Devices.Inv devCount s.reg ∧
    (∀ t th, s.threads[t]? = some th → DevThread.Ok devCount s.reg s.mutex t th) ∧
    (∀ t, s.mutex = some t → t < s.threads.length)

/-- Two threads asking for device 0, on two devices. -/
def raceSystem : DevSystem := DevSystem.init 2 [0, 0]

/-- An interleaving of `raceSystem` in which both threads find the slot empty at
the first check before either takes the mutex. -/
def raceSchedule : List Nat := [0, 1, 1, 0, 1, 1, 1, 0, 0, 1, 0, 0, 0]

/-! ## The OpenACC device: static mapping -/

/-- The operations of the OpenACC runtime on the present table (the table of
host-to-device mappings) of a device that `mapStatic` uses, for tables of type
`τ`.  Addresses are numbers and `0` is `nullptr`. -/
structure PresentOps (τ : Type) where
  /-- the result of `acc_deviceptr(pHost)`: the device address mapped to the host
  address, `nullptr` if there is none -/
  acc_deviceptr : τ → Nat → Nat
  /-- the table after `#pragma acc enter data create(pHost[0:n])` -/
  enter_data_create : τ → Nat → Nat → τ

/-- The state of the OpenACC runtime that `mapStatic` acts on: the current
device, given by number and type as set by `acc_set_device_num`, and the present
table of every device. -/
structure AccState (τ : Type) where
  current : Int × Nat
  present : Int × Nat → τ

/-- Models `DevOaccImpl::makeCurrent()`: `acc_set_device_num(iDevice(), deviceType())`. -/
def DevOaccImpl.makeCurrent {τ : Type} (impl : DevOaccImpl) (s : AccState τ) : AccState τ :=
  { s with current := (impl.iDevice, impl.m_deviceType) }

/-- Models `acc_deviceptr(pHost)` on the current device. -/
def accDeviceptr {τ : Type} (ops : PresentOps τ) (s : AccState τ) (pHost : Nat) : Nat :=
  ops.acc_deviceptr (s.present s.current) pHost

/-- Models `#pragma acc enter data create(pHost[0:n])` on the current device. -/
def accEnterDataCreate {τ : Type} (ops : PresentOps τ) (s : AccState τ) (pHost n : Nat) :
    AccState τ :=
  { s with
    present := Function.update s.present s.current
      (ops.enter_data_create (s.present s.current) pHost n) }

/-- Models `DevOaccImpl::mapStatic(pHost, extent)`: the state of the runtime afterwards
and the pointer returned; `none` when the assertion `pDev != nullptr` fails.
The extent is the list of its components, `extent.prod()` their product. -/
def DevOaccImpl.mapStatic {τ : Type} (ops : PresentOps τ) (impl : DevOaccImpl) (s : AccState τ)
    (pHost : Nat) (extent : List Nat) : Option (AccState τ × Nat) :=
  let s1 := impl.makeCurrent s
  let pDev := accDeviceptr ops s1 pHost
  if pDev = 0 then
    let s2 := accEnterDataCreate ops s1 pHost extent.prod
    let pDev2 := accDeviceptr ops s2 pHost
    if pDev2 ≠ 0 then some (s2, pDev2) else none
  else
    some (s1, pDev)

/-- Models `DevOacc::mapStatic(pHost, extent)`: forwards to the implementation. -/
def DevOacc.mapStatic {τ : Type} (ops : PresentOps τ) (dev : DevOacc) (s : AccState τ)
    (pHost : Nat) (extent : List Nat) : Option (AccState τ × Nat) :=
  dev.m_devOaccImpl.mapStatic ops s pHost extent

/-- An entry of the example present table: host address, number of elements,
device address. -/
structure Mapping where
  host : Nat
  count : Nat
  dev : Nat
deriving DecidableEq, Repr

/-- An example runtime: the present table is a list of mappings, looked up by
host address; a created mapping gets the next free device address. -/
def tableOps : PresentOps (List Mapping) :=
  { acc_deviceptr := fun tbl pHost =>
      match tbl.find? (fun m => m.host == pHost) with
      | some m => m.dev
      | none => 0,
    enter_data_create := fun tbl pHost n =>
      tbl ++ [{ host := pHost, count := n, dev := 4096 + (tbl.map (fun m => m.count)).sum }] }

/-- An example state of the runtime: no device has a mapping. -/
def emptyAccState : AccState (List Mapping) := { current := (0, 0), present := fun _ => [] }

/-! ## Properties of the host `memSet` -/

theorem toUChar_byte (b : Byte) : toUChar (b.val : Int) = b := by
  apply Fin.ext
  have h := b.isLt
  simp only [toUChar]
  omega

theorem std_memset_hit (mem : Mem) (dest : Nat) (ch : Int) (count a : Nat)
    (h : dest ≤ a ∧ a < dest + count) : std_memset mem dest ch count a = toUChar ch := by
  simp [std_memset, h]

theorem std_memset_miss (mem : Mem) (dest : Nat) (ch : Int) (count a : Nat)
    (h : ¬ (dest ≤ a ∧ a < dest + count)) : std_memset mem dest ch count a = mem a := by
  simp only [std_memset, if_neg h]

/-- A loop whose body `k` sets the offsets of a region `R k` to `v` sets every
offset of the regions `R 0`, ..., `R (n - 1)` to `v`. -/
theorem forLoop_hit (v : Byte) (R : Nat → Nat → Prop) (body : Nat → Mem → Mem)
    (hhit : ∀ k m a, R k a → body k m a = v)
    (hmiss : ∀ k m a, ¬ R k a → body k m a = m a)
    (n : Nat) (mem : Mem) (a k : Nat) (hk : k < n) (hR : R k a) :
    forLoop n body mem a = v := by
  induction n with
  | zero => omega
  | succ n ih =>
    simp only [forLoop]
    by_cases hn : R n a
    · exact hhit n _ a hn
    · rw [hmiss n _ a hn]
      have hkn : k ≠ n := fun e => hn (e ▸ hR)
      exact ih (by omega)

/-- A loop whose body `k` leaves the offsets outside a region `R k` alone leaves
every offset outside the regions `R 0`, ..., `R (n - 1)` alone. -/
theorem forLoop_miss (R : Nat → Nat → Prop) (body : Nat → Mem → Mem)
    (hmiss : ∀ k m a, ¬ R k a → body k m a = m a)
    (n : Nat) (mem : Mem) (a : Nat) (hR : ∀ k, k < n → ¬ R k a) :
    forLoop n body mem a = mem a := by
  induction n with
  | zero => rfl
  | succ n ih =>
    simp only [forLoop]
    rw [hmiss n _ a (hR n (by omega))]
    exact ih (fun k hk => hR k (by omega))

theorem fillRows_hit (memBufDst : MemBuf) (ch : Int) (extents : Extents) (z : Nat) (mem : Mem)
    (a : Nat) (h : rowsRegion memBufDst extents z a) :
    fillRows memBufDst ch extents z mem a = toUChar ch := by
  obtain ⟨y, hy, h1, h2⟩ := h
  exact forLoop_hit (toUChar ch)
    (fun y a => y * memBufDst.pitchBytes + z * uiDstSliceSizeBytes memBufDst ≤ a ∧
      a < y * memBufDst.pitchBytes + z * uiDstSliceSizeBytes memBufDst
        + uiExtentWidthBytes memBufDst extents)
    _ (fun k m a h => std_memset_hit m _ ch _ a h) (fun k m a h => std_memset_miss m _ ch _ a h)
    extents.height mem a y hy ⟨h1, h2⟩

theorem fillRows_miss (memBufDst : MemBuf) (ch : Int) (extents : Extents) (z : Nat) (mem : Mem)
    (a : Nat) (h : ¬ rowsRegion memBufDst extents z a) :
    fillRows memBufDst ch extents z mem a = mem a := by
  exact forLoop_miss
    (fun y a => y * memBufDst.pitchBytes + z * uiDstSliceSizeBytes memBufDst ≤ a ∧
      a < y * memBufDst.pitchBytes + z * uiDstSliceSizeBytes memBufDst
        + uiExtentWidthBytes memBufDst extents)
    _ (fun k m a h => std_memset_miss m _ ch _ a h)
    extents.height mem a (fun y hy hc => h ⟨y, hy, hc.1, hc.2⟩)

theorem fillSlice_hit (memBufDst : MemBuf) (ch : Int) (extents : Extents) (z : Nat) (mem : Mem)
    (a : Nat) (h : sliceRegion memBufDst extents z a) :
    fillSlice memBufDst ch extents z mem a = toUChar ch :=
  std_memset_hit mem _ ch _ a h

theorem fillSlice_miss (memBufDst : MemBuf) (ch : Int) (extents : Extents) (z : Nat) (mem : Mem)
    (a : Nat) (h : ¬ sliceRegion memBufDst extents z a) :
    fillSlice memBufDst ch extents z mem a = mem a :=
  std_memset_miss mem _ ch _ a h

/-- A byte `x` of row `y < H` lies inside the `p * H` bytes of the slice. -/
theorem row_lt_slice (p H y x : Nat) (hy : y < H) (hx : x < p) : y * p + x < p * H := by
  calc y * p + x < y * p + p := by omega
    _ = (y + 1) * p := by ring
    _ ≤ H * p := Nat.mul_le_mul_right p hy
    _ = p * H := by ring

/-- An offset `r < S` of slice `z < D` lies inside the `S * D` bytes of the slices. -/
theorem slice_lt_whole (S D z r : Nat) (hz : z < D) (hr : r < S) : z * S + r < S * D := by
  calc z * S + r < z * S + S := by omega
    _ = (z + 1) * S := by ring
    _ ≤ D * S := Nat.mul_le_mul_right S hz
    _ = S * D := by ring

/-- Every tier, when forced, sets the requested row segments to the fill byte
if the assertions hold. -/
theorem memSetForced_requested (t : Tier) (memBufDst : MemBuf) (byte : Byte) (extents : Extents)
    (mem : Mem) (hpre : memSetAsserts memBufDst extents) (z y x : Nat)
    (hz : z < extents.depth) (hy : y < extents.height)
    (hx : x < extents.width * memBufDst.elemSize) :
    memSetForced t memBufDst byte extents mem
      (z * (memBufDst.pitchBytes * memBufDst.height) + y * memBufDst.pitchBytes + x) = byte := by
  obtain ⟨_, hH, _, hW⟩ := hpre
  simp only [uiExtentWidthBytes] at hW
  have hxp : x < memBufDst.pitchBytes := by omega
  cases t with
  | whole =>
    simp only [memSetForced, fillWhole]
    rw [std_memset_hit, toUChar_byte]
    refine ⟨Nat.zero_le _, ?_⟩
    have h1 := row_lt_slice memBufDst.pitchBytes memBufDst.height y x (by omega) hxp
    have h2 := slice_lt_whole (memBufDst.pitchBytes * memBufDst.height) extents.depth z
      (y * memBufDst.pitchBytes + x) hz h1
    simp only [uiDstSliceSizeBytes]
    omega
  | slices =>
    simp only [memSetForced]
    rw [forLoop_hit (toUChar (byte.val : Int)) (sliceRegion memBufDst extents) _
      (fun k m a h => fillSlice_hit memBufDst _ extents k m a h)
      (fun k m a h => fillSlice_miss memBufDst _ extents k m a h)
      extents.depth mem _ z hz, toUChar_byte]
    have h1 := row_lt_slice memBufDst.pitchBytes extents.height y x hy hxp
    simp only [sliceRegion, uiDstSliceSizeBytes]
    omega
  | rows =>
    simp only [memSetForced]
    rw [forLoop_hit (toUChar (byte.val : Int)) (rowsRegion memBufDst extents) _
      (fun k m a h => fillRows_hit memBufDst _ extents k m a h)
      (fun k m a h => fillRows_miss memBufDst _ extents k m a h)
      extents.depth mem _ z hz, toUChar_byte]
    refine ⟨y, hy, ?_, ?_⟩
    · simp only [uiDstSliceSizeBytes]; omega
    · simp only [uiDstSliceSizeBytes, uiExtentWidthBytes]; omega

/-- The fill of `memSet` is the fill of the tier it selects. -/
theorem memSetFill_eq_forced (memBufDst : MemBuf) (byte : Byte) (extents : Extents) (mem : Mem) :
    memSetFill memBufDst byte extents mem
      = memSetForced (selectedTier memBufDst extents) memBufDst byte extents mem := by
  unfold memSetFill selectedTier
  by_cases h1 : wholeCond memBufDst extents = true
  · simp [h1, memSetForced]
  · by_cases h2 : sliceCond memBufDst extents = true
    · simp [h1, h2, memSetForced]
    · simp [h1, h2, memSetForced]

/-- A row-segment offset determines its position `x` inside the row. -/
theorem rowOffset_mod (p H z y x : Nat) (hx : x < p) :
    (z * (p * H) + y * p + x) % p = x := by
  have e : z * (p * H) + y * p + x = x + p * (z * H + y) := by ring
  rw [e, Nat.add_mul_mod_self_left, Nat.mod_eq_of_lt hx]

/-- The region written by the row loop of a slice is made of requested row segments. -/
theorem rowsRegion_inRowSegment (memBufDst : MemBuf) (extents : Extents) (z a : Nat)
    (hz : z < extents.depth) (h : rowsRegion memBufDst extents z a) :
    inRowSegment memBufDst extents a := by
  obtain ⟨y, hy, h1, h2⟩ := h
  simp only [uiDstSliceSizeBytes, uiExtentWidthBytes] at h1 h2
  refine ⟨z, y, a - (y * memBufDst.pitchBytes + z * (memBufDst.pitchBytes * memBufDst.height)),
    hz, hy, ?_, ?_⟩
  · omega
  · omega

/-- Two loops whose bodies set regions that cover the same offsets in each
iteration compute the same memory. -/
theorem forLoop_region_congr (v : Byte) (R1 R2 : Nat → Nat → Prop) (b1 b2 : Nat → Mem → Mem)
    (hhit1 : ∀ k m a, R1 k a → b1 k m a = v) (hmiss1 : ∀ k m a, ¬ R1 k a → b1 k m a = m a)
    (hhit2 : ∀ k m a, R2 k a → b2 k m a = v) (hmiss2 : ∀ k m a, ¬ R2 k a → b2 k m a = m a)
    (n : Nat) (hR : ∀ k a, k < n → (R1 k a ↔ R2 k a)) (mem : Mem) :
    forLoop n b1 mem = forLoop n b2 mem := by
  funext a
  by_cases h : ∃ k, k < n ∧ R1 k a
  · obtain ⟨k, hk, hr⟩ := h
    rw [forLoop_hit v R1 b1 hhit1 hmiss1 n mem a k hk hr,
      forLoop_hit v R2 b2 hhit2 hmiss2 n mem a k hk ((hR k a hk).1 hr)]
  · have h1 : ∀ k, k < n → ¬ R1 k a := fun k hk hr => h ⟨k, hk, hr⟩
    have h2 : ∀ k, k < n → ¬ R2 k a := fun k hk hr => h ⟨k, hk, (hR k a hk).2 hr⟩
    rw [forLoop_miss R1 b1 hmiss1 n mem a h1, forLoop_miss R2 b2 hmiss2 n mem a h2]

/-- Without padding at the end of a row, the rows of a slice tile the span set
by the slice fill. -/
theorem sliceRegion_iff_rowsRegion (memBufDst : MemBuf) (extents : Extents)
    (hW : uiExtentWidthBytes memBufDst extents = memBufDst.pitchBytes) (z a : Nat) :
    sliceRegion memBufDst extents z a ↔ rowsRegion memBufDst extents z a := by
  unfold sliceRegion rowsRegion
  rw [hW]
  generalize uiDstSliceSizeBytes memBufDst = S
  generalize memBufDst.pitchBytes = p
  generalize extents.height = H
  constructor
  · rintro ⟨h1, h2⟩
    have hr : a - z * S < p * H := by omega
    have hy : (a - z * S) / p < H := Nat.div_lt_of_lt_mul hr
    have hdm := Nat.div_add_mod (a - z * S) p
    have hp : 0 < p := by
      rcases Nat.eq_zero_or_pos p with h0 | h0
      · subst h0; simp at hr
      · exact h0
    have hm := Nat.mod_lt (a - z * S) hp
    refine ⟨(a - z * S) / p, hy, ?_, ?_⟩
    · have e : (a - z * S) / p * p = p * ((a - z * S) / p) := Nat.mul_comm _ _
      omega
    · have e : (a - z * S) / p * p = p * ((a - z * S) / p) := Nat.mul_comm _ _
      omega
  · rintro ⟨y, hy, h1, h2⟩
    have h3 : (y + 1) * p ≤ H * p := Nat.mul_le_mul_right p hy
    have e1 : (y + 1) * p = y * p + p := by ring
    have e2 : H * p = p * H := Nat.mul_comm _ _
    constructor
    · omega
    · omega

/-- The slices tile what the whole-memory fill sets, when their height is the
destination's. -/
theorem whole_iff_sliceRegion (memBufDst : MemBuf) (extents : Extents)
    (hH : extents.height = memBufDst.height) (a : Nat) :
    (0 ≤ a ∧ a < 0 + uiDstSliceSizeBytes memBufDst * extents.depth)
      ↔ ∃ z, z < extents.depth ∧ sliceRegion memBufDst extents z a := by
  unfold sliceRegion
  rw [hH]
  simp only [uiDstSliceSizeBytes]
  generalize memBufDst.pitchBytes * memBufDst.height = S
  generalize extents.depth = D
  constructor
  · rintro ⟨_, h⟩
    have h' : a < S * D := by omega
    have hz : a / S < D := Nat.div_lt_of_lt_mul h'
    have hdm := Nat.div_add_mod a S
    have hS : 0 < S := by
      rcases Nat.eq_zero_or_pos S with h0 | h0
      · subst h0; simp at h'
      · exact h0
    have hm := Nat.mod_lt a hS
    have e : a / S * S = S * (a / S) := Nat.mul_comm _ _
    exact ⟨a / S, hz, by omega, by omega⟩
  · rintro ⟨z, hz, h1, h2⟩
    have h3 := slice_lt_whole S D z (a - z * S) hz (by omega)
    exact ⟨Nat.zero_le _, by omega⟩

/-- Claim C1. When the assertions of `memSet` hold (extent width, height and depth
at most the destination's, extent width in bytes at most the pitch), `memSet`
returns, and afterwards every byte at offset `z * (pitch * dstHeight) + y * pitch + x`
with `z <` extent depth, `y <` extent height and `x <` extent width times element
size holds the fill byte, whichever of the three branches is taken. -/
theorem memSet_sets_requested_bytes (memBufDst : MemBuf) (byte : Byte) (extents : Extents)
    (mem : Mem) (hpre : memSetAsserts memBufDst extents) :
    ∃ mem', memSet memBufDst byte extents mem = some mem' ∧
      ∀ z y x, z < extents.depth → y < extents.height →
        x < extents.width * memBufDst.elemSize →
        mem' (z * (memBufDst.pitchBytes * memBufDst.height) + y * memBufDst.pitchBytes + x)
          = byte := by
  refine ⟨memSetFill memBufDst byte extents mem, by simp [memSet, hpre], ?_⟩
  intro z y x hz hy hx
  rw [memSetFill_eq_forced]
  exact memSetForced_requested _ memBufDst byte extents mem hpre z y x hz hy hx

theorem memSet_sets_requested_bytes_witness :
    memSetAsserts exampleBuf exampleExtents ∧
      ∃ mem', memSet exampleBuf 0xAB exampleExtents zeroMem = some mem' ∧
        ∀ z y x, z < exampleExtents.depth → y < exampleExtents.height →
          x < exampleExtents.width * exampleBuf.elemSize →
          mem' (z * (exampleBuf.pitchBytes * exampleBuf.height) + y * exampleBuf.pitchBytes + x)
            = 0xAB :=
  ⟨by decide, memSet_sets_requested_bytes exampleBuf 0xAB exampleExtents zeroMem (by decide)⟩

/-- Claim C2. When the assertions of `memSet` hold and the extent width is smaller
than the width of the buffer base, `memSet` returns and every byte outside the
requested row segments `[z * (pitch * dstHeight) + y * pitch, + extent width * element size)`
keeps the value it had before the call; in particular the bytes of a row at
positions from the extent width in bytes up to the pitch are untouched.  (That
the pitch exceeds the row width is not needed.) -/
theorem memSet_narrow_preserves_outside (memBufDst : MemBuf) (byte : Byte) (extents : Extents)
    (mem : Mem) (hpre : memSetAsserts memBufDst extents)
    (hnarrow : extents.width < memBufDst.baseWidth) :
    ∃ mem', memSet memBufDst byte extents mem = some mem' ∧
      (∀ a, ¬ inRowSegment memBufDst extents a → mem' a = mem a) ∧
      (∀ z y x, extents.width * memBufDst.elemSize ≤ x → x < memBufDst.pitchBytes →
        mem' (z * (memBufDst.pitchBytes * memBufDst.height) + y * memBufDst.pitchBytes + x)
          = mem (z * (memBufDst.pitchBytes * memBufDst.height) + y * memBufDst.pitchBytes + x))
    := by
  have hsel : selectedTier memBufDst extents = .rows := by
    have hne : extents.width ≠ memBufDst.baseWidth := by omega
    simp [selectedTier, wholeCond, sliceCond, hne]
  have hout : ∀ a, ¬ inRowSegment memBufDst extents a →
      memSetFill memBufDst byte extents mem a = mem a := by
    intro a ha
    rw [memSetFill_eq_forced, hsel]
    simp only [memSetForced]
    exact forLoop_miss (rowsRegion memBufDst extents) _
      (fun k m a h => fillRows_miss memBufDst _ extents k m a h)
      extents.depth mem a
      (fun z hz hr => ha (rowsRegion_inRowSegment memBufDst extents z a hz hr))
  refine ⟨memSetFill memBufDst byte extents mem, by simp [memSet, hpre], hout, ?_⟩
  intro z y x hx1 hx2
  apply hout
  rintro ⟨z', y', x', _, _, hx', he⟩
  have h1 := rowOffset_mod memBufDst.pitchBytes memBufDst.height z y x hx2
  have h2 := rowOffset_mod memBufDst.pitchBytes memBufDst.height z' y' x' (by omega)
  rw [he, h2] at h1
  omega

theorem memSet_narrow_preserves_outside_witness :
    memSetAsserts exampleBuf narrowExtents ∧ narrowExtents.width < exampleBuf.baseWidth ∧
      ∃ mem', memSet exampleBuf 0xAB narrowExtents zeroMem = some mem' ∧
        (∀ a, ¬ inRowSegment exampleBuf narrowExtents a → mem' a = zeroMem a) ∧
        (∀ z y x, narrowExtents.width * exampleBuf.elemSize ≤ x → x < exampleBuf.pitchBytes →
          mem' (z * (exampleBuf.pitchBytes * exampleBuf.height) + y * exampleBuf.pitchBytes + x)
            = zeroMem
              (z * (exampleBuf.pitchBytes * exampleBuf.height) + y * exampleBuf.pitchBytes + x)) :=
  ⟨by decide, by decide,
    memSet_narrow_preserves_outside exampleBuf 0xAB narrowExtents zeroMem (by decide) (by decide)⟩

/-- Claim C3, as stated, fails: on a destination of 2 rows of 3 bytes with 4 bytes
of pitch, filled over its full extents, the whole-memory fill and the slice fill
overwrite the pitch byte at offset 3, which the row fill leaves alone. -/
theorem memSetForced_tiers_differ :
    memSetAsserts paddedBuf paddedExtents ∧
      memSetForced .whole paddedBuf 0xAB paddedExtents zeroMem 3 = 0xAB ∧
      memSetForced .slices paddedBuf 0xAB paddedExtents zeroMem 3 = 0xAB ∧
      memSetForced .rows paddedBuf 0xAB paddedExtents zeroMem 3 = 0 := by
  refine ⟨by decide, ?_, ?_, ?_⟩ <;> decide

/-- A requested row segment lies inside the span of its slice, when the extent
width in bytes is at most the pitch. -/
theorem inSliceSpan_of_inRowSegment (memBufDst : MemBuf) (extents : Extents) (a : Nat)
    (hW : extents.width * memBufDst.elemSize ≤ memBufDst.pitchBytes)
    (h : inRowSegment memBufDst extents a) : inSliceSpan memBufDst extents a := by
  obtain ⟨z, y, x, hz, hy, hx, rfl⟩ := h
  have h1 := row_lt_slice memBufDst.pitchBytes extents.height y x hy (by omega)
  exact ⟨z, hz, by omega, by omega⟩

/-- A slice span lies inside the range of the whole-memory fill, when the extent
height is at most the height of the destination. -/
theorem lt_whole_of_inSliceSpan (memBufDst : MemBuf) (extents : Extents) (a : Nat)
    (hH : extents.height ≤ memBufDst.height) (h : inSliceSpan memBufDst extents a) :
    a < memBufDst.pitchBytes * memBufDst.height * extents.depth := by
  obtain ⟨z, hz, h1, h2⟩ := h
  have h3 : memBufDst.pitchBytes * extents.height ≤ memBufDst.pitchBytes * memBufDst.height :=
    Nat.mul_le_mul_left _ hH
  have h4 := slice_lt_whole (memBufDst.pitchBytes * memBufDst.height) extents.depth z
    (a - z * (memBufDst.pitchBytes * memBufDst.height)) hz (by omega)
  omega

/-- The whole-memory fill, forced: the fill byte below `pitch * dstHeight * extent depth`,
the old byte from there on. -/
theorem memSetForced_whole_eq (memBufDst : MemBuf) (byte : Byte) (extents : Extents)
    (mem : Mem) (a : Nat) :
    (a < memBufDst.pitchBytes * memBufDst.height * extents.depth →
        memSetForced .whole memBufDst byte extents mem a = byte) ∧
      (memBufDst.pitchBytes * memBufDst.height * extents.depth ≤ a →
        memSetForced .whole memBufDst byte extents mem a = mem a) := by
  constructor
  · intro h
    simp only [memSetForced, fillWhole, uiDstSliceSizeBytes]
    rw [std_memset_hit, toUChar_byte]
    exact ⟨Nat.zero_le _, by omega⟩
  · intro h
    simp only [memSetForced, fillWhole, uiDstSliceSizeBytes]
    rw [std_memset_miss]
    omega

/-- The slice fill, forced: the fill byte inside the slice spans, the old byte
outside. -/
theorem memSetForced_slices_eq (memBufDst : MemBuf) (byte : Byte) (extents : Extents)
    (mem : Mem) (a : Nat) :
    (inSliceSpan memBufDst extents a →
        memSetForced .slices memBufDst byte extents mem a = byte) ∧
      (¬ inSliceSpan memBufDst extents a →
        memSetForced .slices memBufDst byte extents mem a = mem a) := by
  constructor
  · rintro ⟨z, hz, h1, h2⟩
    simp only [memSetForced]
    rw [forLoop_hit (toUChar (byte.val : Int)) (sliceRegion memBufDst extents) _
      (fun k m a h => fillSlice_hit memBufDst _ extents k m a h)
      (fun k m a h => fillSlice_miss memBufDst _ extents k m a h)
      extents.depth mem a z hz ⟨h1, h2⟩, toUChar_byte]
  · intro h
    simp only [memSetForced]
    exact forLoop_miss (sliceRegion memBufDst extents) _
      (fun k m a h => fillSlice_miss memBufDst _ extents k m a h)
      extents.depth mem a (fun z hz hr => h ⟨z, hz, hr.1, hr.2⟩)

/-- The row fill, forced, leaves the old byte outside the requested row segments. -/
theorem memSetForced_rows_outside (memBufDst : MemBuf) (byte : Byte) (extents : Extents)
    (mem : Mem) (a : Nat) (h : ¬ inRowSegment memBufDst extents a) :
    memSetForced .rows memBufDst byte extents mem a = mem a := by
  simp only [memSetForced]
  exact forLoop_miss (rowsRegion memBufDst extents) _
    (fun k m a h => fillRows_miss memBufDst _ extents k m a h)
    extents.depth mem a
    (fun z hz hr => h (rowsRegion_inRowSegment memBufDst extents z a hz hr))

/-- Claim C3, amended.  Forced individually on the same memory, each fill sets
exactly its own region to the fill byte and leaves every other byte unchanged:
the whole-memory fill the range `[0, pitch * dstHeight * extent depth)`, the
slice fill the slice spans `[z * pitch * dstHeight, + pitch * extent height)`,
the row fill (under the assertions) the requested row segments.  Under the
assertions these regions are nested, so the three results agree on every byte of
a requested row segment (the fill byte) and on every byte at or beyond
`pitch * dstHeight * extent depth` (unchanged), the whole-memory and slice fills
agree on every byte inside a slice span, and the slice and row fills agree on
every byte outside the slice spans: two fills differ only on bytes of the wider
region that are outside the narrower one.  The whole-memory and slice fills give
identical memories when the extent height is the height of the destination, the
slice and row fills when the extent width in bytes is the pitch. -/
theorem memSetForced_tiers_agree (memBufDst : MemBuf) (byte : Byte) (extents : Extents)
    (mem : Mem) :
    (memSetAsserts memBufDst extents →
        (∀ t a, inRowSegment memBufDst extents a →
          memSetForced t memBufDst byte extents mem a = byte) ∧
        (∀ t a, memBufDst.pitchBytes * memBufDst.height * extents.depth ≤ a →
          memSetForced t memBufDst byte extents mem a = mem a) ∧
        (∀ a, inSliceSpan memBufDst extents a →
          memSetForced .whole memBufDst byte extents mem a
            = memSetForced .slices memBufDst byte extents mem a) ∧
        (∀ a, ¬ inSliceSpan memBufDst extents a →
          memSetForced .slices memBufDst byte extents mem a
            = memSetForced .rows memBufDst byte extents mem a)) ∧
      (∀ a, (a < memBufDst.pitchBytes * memBufDst.height * extents.depth →
          memSetForced .whole memBufDst byte extents mem a = byte) ∧
        (memBufDst.pitchBytes * memBufDst.height * extents.depth ≤ a →
          memSetForced .whole memBufDst byte extents mem a = mem a)) ∧
      (∀ a, (inSliceSpan memBufDst extents a →
          memSetForced .slices memBufDst byte extents mem a = byte) ∧
        (¬ inSliceSpan memBufDst extents a →
          memSetForced .slices memBufDst byte extents mem a = mem a)) ∧
      (∀ a, ¬ inRowSegment memBufDst extents a →
        memSetForced .rows memBufDst byte extents mem a = mem a) ∧
      (extents.height = memBufDst.height →
        memSetForced .whole memBufDst byte extents mem
          = memSetForced .slices memBufDst byte extents mem) ∧
      (extents.width * memBufDst.elemSize = memBufDst.pitchBytes →
        memSetForced .slices memBufDst byte extents mem
          = memSetForced .rows memBufDst byte extents mem) := by
  refine ⟨?_, memSetForced_whole_eq memBufDst byte extents mem,
    memSetForced_slices_eq memBufDst byte extents mem,
    memSetForced_rows_outside memBufDst byte extents mem, ?_, ?_⟩
  · intro hpre
    have hH : extents.height ≤ memBufDst.height := hpre.2.1
    have hW : extents.width * memBufDst.elemSize ≤ memBufDst.pitchBytes := hpre.2.2.2
    refine ⟨?_, ?_, ?_, ?_⟩
    · rintro t a ⟨z, y, x, hz, hy, hx, rfl⟩
      exact memSetForced_requested t memBufDst byte extents mem hpre z y x hz hy hx
    · intro t a ha
      have hspan : ¬ inSliceSpan memBufDst extents a := fun h =>
        absurd (lt_whole_of_inSliceSpan memBufDst extents a hH h) (by omega)
      cases t with
      | whole => exact (memSetForced_whole_eq memBufDst byte extents mem a).2 ha
      | slices => exact (memSetForced_slices_eq memBufDst byte extents mem a).2 hspan
      | rows =>
        exact memSetForced_rows_outside memBufDst byte extents mem a
          (fun h => hspan (inSliceSpan_of_inRowSegment memBufDst extents a hW h))
    · intro a ha
      rw [(memSetForced_whole_eq memBufDst byte extents mem a).1
          (lt_whole_of_inSliceSpan memBufDst extents a hH ha),
        (memSetForced_slices_eq memBufDst byte extents mem a).1 ha]
    · intro a ha
      rw [(memSetForced_slices_eq memBufDst byte extents mem a).2 ha,
        memSetForced_rows_outside memBufDst byte extents mem a
          (fun h => ha (inSliceSpan_of_inRowSegment memBufDst extents a hW h))]
  · intro hH
    funext a
    simp only [memSetForced, fillWhole]
    by_cases h : 0 ≤ a ∧ a < 0 + uiDstSliceSizeBytes memBufDst * extents.depth
    · obtain ⟨z, hz, hr⟩ := (whole_iff_sliceRegion memBufDst extents hH a).1 h
      rw [std_memset_hit _ _ _ _ _ h,
        forLoop_hit (toUChar (byte.val : Int)) (sliceRegion memBufDst extents) _
          (fun k m a h => fillSlice_hit memBufDst _ extents k m a h)
          (fun k m a h => fillSlice_miss memBufDst _ extents k m a h)
          extents.depth mem a z hz hr]
    · rw [std_memset_miss _ _ _ _ _ h,
        forLoop_miss (sliceRegion memBufDst extents) _
          (fun k m a h => fillSlice_miss memBufDst _ extents k m a h)
          extents.depth mem a
          (fun z hz hr => h ((whole_iff_sliceRegion memBufDst extents hH a).2 ⟨z, hz, hr⟩))]
  · intro hW
    simp only [memSetForced]
    exact forLoop_region_congr (toUChar (byte.val : Int))
      (sliceRegion memBufDst extents) (rowsRegion memBufDst extents) _ _
      (fun k m a h => fillSlice_hit memBufDst _ extents k m a h)
      (fun k m a h => fillSlice_miss memBufDst _ extents k m a h)
      (fun k m a h => fillRows_hit memBufDst _ extents k m a h)
      (fun k m a h => fillRows_miss memBufDst _ extents k m a h)
      extents.depth
      (fun k a _ => sliceRegion_iff_rowsRegion memBufDst extents hW k a) mem

theorem memSetForced_tiers_agree_witness :
    memSetAsserts paddedBuf paddedExtents ∧ inRowSegment paddedBuf paddedExtents 5 ∧
      (∀ t, memSetForced t paddedBuf 0xAB paddedExtents zeroMem 5 = 0xAB) ∧
      paddedBuf.pitchBytes * paddedBuf.height * paddedExtents.depth ≤ 9 ∧
      (∀ t, memSetForced t paddedBuf 0xAB paddedExtents zeroMem 9 = zeroMem 9) ∧
      inSliceSpan paddedBuf paddedExtents 3 ∧
      memSetForced .whole paddedBuf 0xAB paddedExtents zeroMem 3
        = memSetForced .slices paddedBuf 0xAB paddedExtents zeroMem 3 ∧
      exampleExtents.height = exampleBuf.height ∧
      memSetForced .whole exampleBuf 0xAB exampleExtents zeroMem
        = memSetForced .slices exampleBuf 0xAB exampleExtents zeroMem ∧
      packedExtents.width * packedBuf.elemSize = packedBuf.pitchBytes ∧
      memSetForced .slices packedBuf 0xAB packedExtents zeroMem
        = memSetForced .rows packedBuf 0xAB packedExtents zeroMem :=
  ⟨by decide, ⟨0, 1, 1, by decide, by decide, by decide, by decide⟩,
    fun t => ((memSetForced_tiers_agree paddedBuf 0xAB paddedExtents zeroMem).1 (by decide)).1 t 5
      ⟨0, 1, 1, by decide, by decide, by decide, by decide⟩,
    by decide,
    fun t => ((memSetForced_tiers_agree paddedBuf 0xAB paddedExtents zeroMem).1
      (by decide)).2.1 t 9 (by decide),
    ⟨0, by decide, by decide, by decide⟩,
    ((memSetForced_tiers_agree paddedBuf 0xAB paddedExtents zeroMem).1 (by decide)).2.2.1 3
      ⟨0, by decide, by decide, by decide⟩,
    by decide,
    (memSetForced_tiers_agree exampleBuf 0xAB exampleExtents zeroMem).2.2.2.2.1 (by decide),
    by decide,
    (memSetForced_tiers_agree packedBuf 0xAB packedExtents zeroMem).2.2.2.2.2 (by decide)⟩

/-- Claim C9, as stated, fails: for the destination of 4 rows, 16 bytes of pitch
and 10 one-byte elements per row, with a buffer base of width 10 and height 4,
`memSet` with `0xAB` over the full 4 x 10 extents takes the whole-memory branch;
starting from a zeroed memory the pitch byte at offset 10 holds `0xAB`
afterwards, and all 64 bytes of the 4 rows do. -/
theorem memSet_example_overwrites_pitch :
    wholeCond exampleBuf exampleExtents = true ∧
      (memSet exampleBuf 0xAB exampleExtents zeroMem).map (fun m => m 10) = some 0xAB ∧
      (memSet exampleBuf 0xAB exampleExtents zeroMem).map
        (fun m => ((List.range 64).filter (fun a => m a = 0xAB)).length) = some 64 := by
  refine ⟨by decide, by decide, by decide⟩

/-- Claim C9, amended.  For the destination of 4 rows, 16 bytes of pitch and 10
one-byte elements per row (depth 1) with a buffer base of width 10 and height 4,
`memSet` with `0xAB` over the full 4 x 10 extents sets all `4 * 16 = 64` bytes to
`0xAB`, the 24 pitch bytes included, and changes no byte from offset 64 on: the
branch is chosen by comparing the extent width with the width of the buffer
base, not with the pitch. -/
theorem memSet_example_sets_whole (mem : Mem) :
    selectedTier exampleBuf exampleExtents = .whole ∧
      ∃ mem', memSet exampleBuf 0xAB exampleExtents mem = some mem' ∧
        (∀ a, a < 64 → mem' a = 0xAB) ∧ (∀ a, 64 ≤ a → mem' a = mem a) := by
  refine ⟨by decide, memSetFill exampleBuf 0xAB exampleExtents mem,
    by simp only [memSet, if_pos (show memSetAsserts exampleBuf exampleExtents from by decide)],
    ?_, ?_⟩
  · intro a ha
    have hw : wholeCond exampleBuf exampleExtents = true := by decide
    simp only [memSetFill, hw, if_true, fillWhole]
    rw [std_memset_hit, toUChar_byte]
    exact ⟨Nat.zero_le _, by
      have : uiDstSliceSizeBytes exampleBuf * exampleExtents.depth = 64 := by decide
      omega⟩
  · intro a ha
    have hw : wholeCond exampleBuf exampleExtents = true := by decide
    simp only [memSetFill, hw, if_true, fillWhole]
    rw [std_memset_miss]
    have : uiDstSliceSizeBytes exampleBuf * exampleExtents.depth = 64 := by decide
    omega

/-- Claim C10. The overload of `memSet` taking a host stream leaves the memory in
exactly the state the overload without a stream does, for every destination,
fill byte, extents and stream: the fill is done before the call returns and the
stream has no influence on the result. -/
theorem memSetStream_eq_memSet {StreamHost : Type} (memBufDst : MemBuf) (byte : Byte)
    (extents : Extents) (stream : StreamHost) (mem : Mem) :
    memSetStream memBufDst byte extents stream mem = memSet memBufDst byte extents mem ∧
      ∀ stream2 : StreamHost,
        memSetStream memBufDst byte extents stream2 mem
          = memSetStream memBufDst byte extents stream mem :=
  ⟨rfl, fun _ => rfl⟩

/-! ## Properties of the queue registry -/

theorem WeakPtr.lock_eq_self (destroyed : List QueueId) (w : WeakPtr) (q : QueueId)
    (h : WeakPtr.lock destroyed w = some q) : w = some q := by
  cases w with
  | none => simp [WeakPtr.lock] at h
  | some q' =>
    simp only [WeakPtr.lock] at h
    split at h
    · simp at h
    · exact h

theorem WeakPtr.alive_some (destroyed : List QueueId) (q : QueueId) :
    WeakPtr.alive destroyed (some q) = true ↔ q ∉ destroyed := by
  simp only [WeakPtr.alive, WeakPtr.lock]
  split <;> simp_all

/-- The loop of `getAllExistingQueues` with the iterator behind the entries `pre`
and `rest` still to visit: given fuel for `rest`, it ends, having appended the
live entries of `rest` to the result and erased the others. -/
theorem getAllExistingQueuesLoop_spec (destroyed : List QueueId) (rest : List WeakPtr) :
    ∀ (fuel : Nat) (pre : List WeakPtr) (vspQueues : List SharedPtr), rest.length ≤ fuel →
      getAllExistingQueuesLoop destroyed fuel pre.length (pre ++ rest) vspQueues
        = some (vspQueues ++ rest.filter (WeakPtr.alive destroyed),
            pre ++ rest.filter (WeakPtr.alive destroyed)) := by
  induction rest with
  | nil =>
    intro fuel pre vsp _
    cases fuel with
    | zero => simp [getAllExistingQueuesLoop]
    | succ fuel => simp [getAllExistingQueuesLoop]
  | cons w rest ih =>
    intro fuel pre vsp hfuel
    cases fuel with
    | zero => simp at hfuel
    | succ fuel =>
      have hget : (pre ++ w :: rest)[pre.length]? = some w := by
        rw [List.getElem?_append_right (Nat.le_refl _)]
        simp
      simp only [getAllExistingQueuesLoop, hget]
      cases hl : WeakPtr.lock destroyed w with
      | some q =>
        have hw : w = some q := WeakPtr.lock_eq_self destroyed w q hl
        have ha : WeakPtr.alive destroyed w = true := by simp [WeakPtr.alive, hl]
        have h1 := ih fuel (pre ++ [w]) (vsp ++ [some q]) (by simpa using hfuel)
        simp only [List.length_append, List.length_singleton, List.append_assoc,
          List.singleton_append] at h1
        show getAllExistingQueuesLoop destroyed fuel (pre.length + 1) (pre ++ w :: rest)
          (vsp ++ [some q]) = _
        rw [h1, List.filter_cons, ha, if_pos rfl, ← hw]
      | none =>
        have ha : WeakPtr.alive destroyed w = false := by simp [WeakPtr.alive, hl]
        have he : (pre ++ w :: rest).eraseIdx pre.length = pre ++ rest := by
          rw [List.eraseIdx_append_of_length_le (Nat.le_refl _)]
          simp
        have h1 := ih fuel pre vsp (by simpa using hfuel)
        show getAllExistingQueuesLoop destroyed fuel pre.length
          ((pre ++ w :: rest).eraseIdx pre.length) vsp = _
        rw [he, h1, List.filter_cons, ha]
        simp

/-- Claim C5. For every registry state, `getAllExistingQueues` returns, its result
is exactly the list of the registered entries whose queue is still alive, in
registration order, and afterwards the stored queue list of the device is the
previous list with every dead entry removed (live entries kept, in order). -/
theorem getAllExistingQueues_spec (destroyed : List QueueId) (impl : DevOaccImpl) :
    impl.getAllExistingQueues destroyed
      = some (impl.m_queues.filter (WeakPtr.alive destroyed),
          { impl with m_queues := impl.m_queues.filter (WeakPtr.alive destroyed) }) := by
  have h := getAllExistingQueuesLoop_spec destroyed impl.m_queues impl.m_queues.length [] []
    (Nat.le_refl _)
  simp only [List.length_nil, List.nil_append] at h
  simp only [DevOaccImpl.getAllExistingQueues, h]

theorem DevOacc.getAllQueues_spec (destroyed : List QueueId) (dev : DevOacc) :
    dev.getAllQueues destroyed
      = some (dev.m_devOaccImpl.m_queues.filter (WeakPtr.alive destroyed),
          { m_devOaccImpl :=
              { dev.m_devOaccImpl with
                m_queues := dev.m_devOaccImpl.m_queues.filter (WeakPtr.alive destroyed) } }) := by
  simp only [DevOacc.getAllQueues, getAllExistingQueues_spec]

/-- One event of the registry: it is always performed, destroyed queues stay
destroyed, a `destroy q` marks `q` destroyed, and a live registered queue stays
registered and alive under every event other than its own destruction. -/
theorem QueueWorld.step_spec (w : QueueWorld) (e : QueueEvent) :
    ∃ w1, w.step e = some w1 ∧
      (∀ q, q ∈ w.destroyed → q ∈ w1.destroyed) ∧
      (∀ q, e = .destroy q → q ∈ w1.destroyed) ∧
      (∀ q, e ≠ .destroy q → some q ∈ w.dev.m_devOaccImpl.m_queues → q ∉ w.destroyed →
        some q ∈ w1.dev.m_devOaccImpl.m_queues ∧ q ∉ w1.destroyed) := by
  cases e with
  | registerQueue sp =>
    refine ⟨_, rfl, fun q h => h, fun q h => (by cases h), fun q _ hq hd => ⟨?_, hd⟩⟩
    simp only [DevOacc.registerQueue, DevOaccImpl.registerQueue]
    exact List.mem_append_left _ hq
  | getAllQueues =>
    refine ⟨{ w with dev := { m_devOaccImpl := { w.dev.m_devOaccImpl with
        m_queues := w.dev.m_devOaccImpl.m_queues.filter (WeakPtr.alive w.destroyed) } } },
      by simp only [QueueWorld.step, DevOacc.getAllQueues_spec], fun q h => h,
      fun q h => (by cases h), fun q _ hq hd => ⟨?_, hd⟩⟩
    exact List.mem_filter.2 ⟨hq, (WeakPtr.alive_some _ q).2 hd⟩
  | destroy q0 =>
    refine ⟨_, rfl, fun q h => List.mem_cons_of_mem _ h, fun q h => ?_, fun q hne hq hd => ⟨hq, ?_⟩⟩
    · cases h
      exact List.mem_cons_self _ _
    · intro hc
      rcases List.mem_cons.1 hc with h | h
      · exact hne (by rw [h])
      · exact hd h

/-- A sequence of events of the registry, with the same conclusions as for one. -/
theorem QueueWorld.run_spec (evs : List QueueEvent) :
    ∀ w : QueueWorld, ∃ w1, w.run evs = some w1 ∧
      (∀ q, q ∈ w.destroyed → q ∈ w1.destroyed) ∧
      (∀ q, .destroy q ∈ evs → q ∈ w1.destroyed) ∧
      (∀ q, .destroy q ∉ evs → some q ∈ w.dev.m_devOaccImpl.m_queues → q ∉ w.destroyed →
        some q ∈ w1.dev.m_devOaccImpl.m_queues ∧ q ∉ w1.destroyed) := by
  induction evs with
  | nil =>
    intro w
    exact ⟨w, rfl, fun q h => h, fun q h => (by cases h), fun q _ hq hd => ⟨hq, hd⟩⟩
  | cons e es ih =>
    intro w
    obtain ⟨w1, hs, hmono, hdes, hkeep⟩ := QueueWorld.step_spec w e
    obtain ⟨w2, hr, hmono2, hdes2, hkeep2⟩ := ih w1
    refine ⟨w2, by simp only [QueueWorld.run, hs, hr], fun q h => hmono2 q (hmono q h), ?_, ?_⟩
    · intro q hq
      rcases List.mem_cons.1 hq with h | h
      · exact hmono2 q (hdes q h.symm)
      · exact hdes2 q h
    · intro q hq hm hd
      have hne : e ≠ .destroy q := fun h => hq (h ▸ List.mem_cons_self _ _)
      have hes : QueueEvent.destroy q ∉ es := fun h => hq (List.mem_cons_of_mem _ h)
      obtain ⟨hm1, hd1⟩ := hkeep q hne hm hd
      exact hkeep2 q hes hm1 hd1

/-- Claim C4. Take any state of one device and of the set of destroyed queues, a
queue `q` that exists, and any sequence `evs` of `registerQueue`, `getAllQueues`
and queue-destruction events.  Registering `q`, then performing `evs`, then
calling `getAllQueues` always goes through, and the result of that call contains
`q` if `evs` does not destroy `q`, and does not contain `q` if `evs` destroys it. -/
theorem registered_queue_listed_until_destroyed (w0 : QueueWorld) (q : QueueId)
    (evs : List QueueEvent) (halive : q ∉ w0.destroyed) :
    ∃ w1 w2 vspQueues dev,
      w0.step (.registerQueue (some q)) = some w1 ∧ w1.run evs = some w2 ∧
      w2.dev.getAllQueues w2.destroyed = some (vspQueues, dev) ∧
      (QueueEvent.destroy q ∉ evs → some q ∈ vspQueues) ∧
      (QueueEvent.destroy q ∈ evs → some q ∉ vspQueues) := by
  obtain ⟨w2, hr, _, hdes, hkeep⟩ :=
    QueueWorld.run_spec evs { w0 with dev := w0.dev.registerQueue (some q) }
  refine ⟨_, w2, _, _, rfl, hr, DevOacc.getAllQueues_spec _ _, ?_, ?_⟩
  · intro hno
    have hreg : some q ∈ (w0.dev.registerQueue (some q)).m_devOaccImpl.m_queues := by
      simp [DevOacc.registerQueue, DevOaccImpl.registerQueue]
    obtain ⟨hm, hd⟩ := hkeep q hno hreg halive
    exact List.mem_filter.2 ⟨hm, (WeakPtr.alive_some _ q).2 hd⟩
  · intro hin hmem
    have hd := hdes q hin
    exact ((WeakPtr.alive_some _ q).1 (List.mem_filter.1 hmem).2) hd

theorem registered_queue_listed_until_destroyed_witness :
    (3 : QueueId) ∉ exampleWorld.destroyed ∧
      ∃ w1 w2 vspQueues dev,
        exampleWorld.step (.registerQueue (some 3)) = some w1 ∧
        w1.run [.getAllQueues, .destroy 7, .registerQueue (some 9), .getAllQueues] = some w2 ∧
        w2.dev.getAllQueues w2.destroyed = some (vspQueues, dev) ∧
        (QueueEvent.destroy 3 ∉
            [QueueEvent.getAllQueues, .destroy 7, .registerQueue (some 9), .getAllQueues] →
          some 3 ∈ vspQueues) ∧
        (QueueEvent.destroy 3 ∈
            [QueueEvent.getAllQueues, .destroy 7, .registerQueue (some 9), .getAllQueues] →
          some 3 ∉ vspQueues) :=
  ⟨by decide, registered_queue_listed_until_destroyed exampleWorld 3
    [.getAllQueues, .destroy 7, .registerQueue (some 9), .getAllQueues] (by decide)⟩

/-! ## Properties of the device registry and lookup -/

theorem castUnsigned_of_inRange (devCount : Nat) (i : Int) (h : inRange devCount i) :
    castUnsigned i < devCount ∧ ((castUnsigned i : Nat) : Int) = i := by
  obtain ⟨h0, h1, _, h2⟩ := h
  unfold castUnsigned
  omega

theorem lt_length_of_getElem? {α : Type} (l : List α) (k : Nat) (a : α) (h : l[k]? = some a) :
    k < l.length := by
  by_contra hc
  rw [List.getElem?_eq_none (by omega)] at h
  cases h

/-- The fast path of `device`: a populated slot is returned as it is. -/
theorem DevOacc.device_populated (acc : OpenAcc) (reg : Devices) (i : Int) (d : DevOaccImpl)
    (h : reg.devices[castUnsigned i]? = some (some d)) :
    DevOacc.device acc reg i = .ok (reg, d) := by
  simp [DevOacc.device, DevOacc.deref, h]

/-- The slow path of `device`: an empty slot is filled with a new
implementation, when `acc_malloc` returns a pointer that is not null. -/
theorem DevOacc.device_empty (acc : OpenAcc) (reg : Devices) (i : Int)
    (h : reg.devices[castUnsigned i]? = some none)
    (hm : acc.acc_malloc reg.constructed.length ≠ 0) :
    DevOacc.device acc reg i
      = .ok (Devices.construct reg (castUnsigned i) i
            (DevOaccImpl.built acc reg.constructed.length i),
          DevOaccImpl.built acc reg.constructed.length i) := by
  have hlt := lt_length_of_getElem? _ _ _ h
  simp [DevOacc.device, DevOacc.deref, DevOaccImpl.new, h, hm, Devices.construct,
    List.getElem?_set_self hlt]

/-- The slow path of `device` when `acc_malloc` returns `nullptr`: the process
dies in the constructor. -/
theorem DevOacc.device_crash (acc : OpenAcc) (reg : Devices) (i : Int)
    (h : reg.devices[castUnsigned i]? = some none)
    (hm : acc.acc_malloc reg.constructed.length = 0) :
    DevOacc.device acc reg i = .crash := by
  simp [DevOacc.device, DevOaccImpl.new, h, hm]

theorem Devices.inv_init (devCount : Nat) : Devices.Inv devCount (Devices.init devCount) := by
  refine ⟨by simp [Devices.init], by simp [Devices.init], ?_, ?_⟩
  · intro i hi
    simp [Devices.init] at hi
  · intro idx d h
    simp only [Devices.init, List.getElem?_replicate] at h
    split at h <;> simp at h

/-- One call of `device` with an in-range index, from a state satisfying the
invariant. -/
theorem DevOacc.device_spec (acc : OpenAcc) (devCount : Nat) (reg : Devices) (i : Int)
    (hm : reg.devices[castUnsigned i]? = some none → acc.acc_malloc reg.constructed.length ≠ 0)
    (hinv : Devices.Inv devCount reg) (hi : inRange devCount i) :
    ∃ reg1 d, DevOacc.device acc reg i = .ok (reg1, d) ∧ Devices.Inv devCount reg1 ∧
      reg1.devices[castUnsigned i]? = some (some d) ∧
      (∀ d0, reg.devices[castUnsigned i]? = some (some d0) → reg1 = reg ∧ d = d0) ∧
      (∀ s, s ≠ castUnsigned i → reg1.devices[s]? = reg.devices[s]?) := by
  obtain ⟨hlen, hnd, hcon, hslot⟩ := hinv
  obtain ⟨hidx, hcast⟩ := castUnsigned_of_inRange devCount i hi
  have hlt : castUnsigned i < reg.devices.length := by omega
  cases hs : reg.devices[castUnsigned i]? with
  | none =>
    rw [List.getElem?_eq_none_iff] at hs
    omega
  | some slot =>
    cases slot with
    | some d =>
      exact ⟨reg, d, DevOacc.device_populated acc reg i d hs, ⟨hlen, hnd, hcon, hslot⟩, hs,
        fun d0 h0 => ⟨rfl, by simpa using h0⟩, fun s _ => rfl⟩
    | none =>
      have hnotin : i ∉ reg.constructed := by
        intro hm
        obtain ⟨_, d, hd⟩ := hcon i hm
        rw [hs] at hd
        simp at hd
      refine ⟨_, _, DevOacc.device_empty acc reg i hs (hm hs), ⟨?_, ?_, ?_, ?_⟩, ?_, ?_, ?_⟩
      · simp [Devices.construct, hlen]
      · simp only [Devices.construct]
        rw [List.nodup_append]
        exact ⟨hnd, List.nodup_singleton _, by
          intro a ha hb
          simp at hb
          exact hnotin (hb ▸ ha)⟩
      · intro j hj
        simp only [Devices.construct, List.mem_append, List.mem_singleton] at hj
        rcases hj with hj | hj
        · obtain ⟨hr, d, hd⟩ := hcon j hj
          refine ⟨hr, d, ?_⟩
          have hne : castUnsigned i ≠ castUnsigned j := by
            intro he
            rw [← he, hs] at hd
            simp at hd
          simp only [Devices.construct, List.getElem?_set_ne hne, hd]
        · subst hj
          exact ⟨hi, DevOaccImpl.built acc reg.constructed.length j,
            by simp only [Devices.construct, List.getElem?_set_self hlt]⟩
      · intro idx d hd
        simp only [Devices.construct] at hd ⊢
        by_cases he : castUnsigned i = idx
        · subst he
          rw [List.getElem?_set_self hlt] at hd
          simp only [Option.some.injEq] at hd
          subst hd
          simp [DevOaccImpl.built, hcast]
        · rw [List.getElem?_set_ne he] at hd
          obtain ⟨h1, h2⟩ := hslot idx d hd
          exact ⟨h1, List.mem_append_left _ h2⟩
      · simp only [Devices.construct, List.getElem?_set_self hlt]
      · intro d0 h0
        simp at h0
      · intro s hne
        simp only [Devices.construct, List.getElem?_set_ne (Ne.symm hne)]

/-- A sequence of calls of `device` with in-range indices, from a state
satisfying the invariant: every call returns, the invariant is kept, and a slot
that is populated keeps its implementation, which every call for its index
returns. -/
theorem deviceRun_spec (acc : OpenAcc) (devCount : Nat) (hm : ∀ k, acc.acc_malloc k ≠ 0)
    (idxs : List Int) :
    ∀ reg : Devices, Devices.Inv devCount reg → (∀ j, j ∈ idxs → inRange devCount j) →
      ∃ reg2 outs, deviceRun acc reg idxs = .ok (reg2, outs) ∧ Devices.Inv devCount reg2 ∧
        ∀ i d, reg.devices[castUnsigned i]? = some (some d) →
          reg2.devices[castUnsigned i]? = some (some d) ∧
          ∀ k : Nat, idxs[k]? = some i → outs[k]? = some d := by
  induction idxs with
  | nil =>
    intro reg hinv _
    exact ⟨reg, [], rfl, hinv, fun i d h => ⟨h, fun k hk => by simp at hk⟩⟩
  | cons j js ih =>
    intro reg hinv hin
    obtain ⟨reg1, dj, hdev, hinv1, hpop, hsame, hother⟩ :=
      DevOacc.device_spec acc devCount reg j (fun _ => hm _) hinv
        (hin j (List.mem_cons_self _ _))
    obtain ⟨reg2, outs, hrun, hinv2, hkeep⟩ :=
      ih reg1 hinv1 (fun x hx => hin x (List.mem_cons_of_mem _ hx))
    refine ⟨reg2, dj :: outs, by simp only [deviceRun, hdev, hrun], hinv2, ?_⟩
    intro i d hd
    have hd1 : reg1.devices[castUnsigned i]? = some (some d) := by
      by_cases he : castUnsigned i = castUnsigned j
      · rw [he] at hd ⊢
        obtain ⟨h1, _⟩ := hsame d hd
        rw [h1]; exact hd
      · rw [hother _ he]; exact hd
    obtain ⟨h2, hk2⟩ := hkeep i d hd1
    refine ⟨h2, ?_⟩
    intro k hk
    cases k with
    | zero =>
      simp only [List.getElem?_cons_zero, Option.some.injEq] at hk
      subst hk
      obtain ⟨_, h3⟩ := hsame d hd
      simp [h3]
    | succ k =>
      simp only [List.getElem?_cons_succ] at hk ⊢
      exact hk2 k hk

theorem castUnsigned_castInt (x : Nat) : castUnsigned (castInt x) = x % 4294967296 := by
  unfold castUnsigned castInt
  split <;> omega

theorem castInt_of_lt (x : Nat) (h : x < 2147483648) : castInt x = (x : Int) := by
  unfold castInt
  split <;> omega

/-- A call of `device` whose converted index is inside the vector returns. -/
theorem DevOacc.device_ok (acc : OpenAcc) (reg : Devices) (i : Int)
    (hm : ∀ k, acc.acc_malloc k ≠ 0) (h : castUnsigned i < reg.devices.length) :
    ∃ reg1 d, DevOacc.device acc reg i = .ok (reg1, d) := by
  cases hs : reg.devices[castUnsigned i]? with
  | none =>
    rw [List.getElem?_eq_none_iff] at hs
    omega
  | some slot =>
    cases slot with
    | some d => exact ⟨_, _, DevOacc.device_populated acc reg i d hs⟩
    | none => exact ⟨_, _, DevOacc.device_empty acc reg i hs (hm _)⟩

/-- A call of `device` with an in-range index that returns, from a state
satisfying the invariant, whatever the runtime. -/
theorem DevOacc.device_spec_of_ok (acc : OpenAcc) (devCount : Nat) (reg reg1 : Devices)
    (i : Int) (d : DevOaccImpl) (hinv : Devices.Inv devCount reg) (hi : inRange devCount i)
    (hok : DevOacc.device acc reg i = .ok (reg1, d)) :
    Devices.Inv devCount reg1 ∧ reg1.devices[castUnsigned i]? = some (some d) ∧
      (∀ d0, reg.devices[castUnsigned i]? = some (some d0) → reg1 = reg ∧ d = d0) ∧
      (∀ s, s ≠ castUnsigned i → reg1.devices[s]? = reg.devices[s]?) := by
  have hm : reg.devices[castUnsigned i]? = some none →
      acc.acc_malloc reg.constructed.length ≠ 0 := by
    intro hs hm0
    rw [DevOacc.device_crash acc reg i hs hm0] at hok
    cases hok
  obtain ⟨reg1', d', hdev, h⟩ := DevOacc.device_spec acc devCount reg i hm hinv hi
  rw [hok] at hdev
  simp only [Outcome.ok.injEq, Prod.mk.injEq] at hdev
  obtain ⟨h1, h2⟩ := hdev
  subst h1; subst h2
  exact h

/-- A sequence of calls of `device` with in-range indices that all return, from
a state satisfying the invariant, whatever the runtime: the invariant is kept,
and a slot that is populated keeps its implementation, which every call for its
index returned. -/
theorem deviceRun_spec_of_ok (acc : OpenAcc) (devCount : Nat) (idxs : List Int) :
    ∀ (reg reg2 : Devices) (outs : List DevOaccImpl), Devices.Inv devCount reg →
      (∀ j, j ∈ idxs → inRange devCount j) → deviceRun acc reg idxs = .ok (reg2, outs) →
      Devices.Inv devCount reg2 ∧
        ∀ i d, reg.devices[castUnsigned i]? = some (some d) →
          reg2.devices[castUnsigned i]? = some (some d) ∧
          ∀ k : Nat, idxs[k]? = some i → outs[k]? = some d := by
  induction idxs with
  | nil =>
    intro reg reg2 outs hinv _ hok
    simp only [deviceRun, Outcome.ok.injEq, Prod.mk.injEq] at hok
    obtain ⟨h1, h2⟩ := hok
    subst h1; subst h2
    exact ⟨hinv, fun i d h => ⟨h, fun k hk => by simp at hk⟩⟩
  | cons j js ih =>
    intro reg reg2 outs hinv hin hok
    simp only [deviceRun] at hok
    cases hdev : DevOacc.device acc reg j with
    | error e => simp [hdev] at hok
    | crash => simp [hdev] at hok
    | ok r =>
      obtain ⟨reg1, dj⟩ := r
      simp only [hdev] at hok
      cases hrun : deviceRun acc reg1 js with
      | error e => simp [hrun] at hok
      | crash => simp [hrun] at hok
      | ok r2 =>
        obtain ⟨reg2', outs'⟩ := r2
        simp only [hrun, Outcome.ok.injEq, Prod.mk.injEq] at hok
        obtain ⟨h1, h2⟩ := hok
        subst h1; subst h2
        obtain ⟨hinv1, hpop, hsame, hother⟩ := DevOacc.device_spec_of_ok acc devCount reg reg1 j
          dj hinv (hin j (List.mem_cons_self _ _)) hdev
        obtain ⟨hinv2, hkeep⟩ := ih reg1 reg2' outs' hinv1
          (fun x hx => hin x (List.mem_cons_of_mem _ hx)) hrun
        refine ⟨hinv2, ?_⟩
        intro i d hd
        have hd1 : reg1.devices[castUnsigned i]? = some (some d) := by
          by_cases he : castUnsigned i = castUnsigned j
          · rw [he] at hd ⊢
            obtain ⟨h1, _⟩ := hsame d hd
            rw [h1]; exact hd
          · rw [hother _ he]; exact hd
        obtain ⟨h2, hk2⟩ := hkeep i d hd1
        refine ⟨h2, ?_⟩
        intro k hk
        cases k with
        | zero =>
          simp only [List.getElem?_cons_zero, Option.some.injEq] at hk
          subst hk
          obtain ⟨_, h3⟩ := hsame d hd
          simp [h3]
        | succ k =>
          simp only [List.getElem?_cons_succ] at hk ⊢
          exact hk2 k hk

theorem exampleAcc_malloc_ne : ∀ k, exampleAcc.acc_malloc k ≠ 0 := by
  intro k
  simp [exampleAcc]

/-- Claim C6. From the initial statics, let any requests `pre` with in-range
indices be made, then a request for the in-range index `i`, then any requests
`post` with in-range indices.  When the runtime never returns `nullptr` from
`acc_malloc` (with `nullptr` the process dies in the constructor), all of them
return.  The request for `i` leaves its slot populated with the implementation
`d` it returns; if the slot was populated before, the statics are unchanged and
`d` is the implementation that was there; the slots of other indices are not
changed by the request.  After `post` the slot still holds `d`, every request
for `i` in `post` returned `d`, the constructor was called exactly once for `i`
(already so right after the request for `i`), and at most once for every index.
The same holds, whatever the runtime, of every such sequence of requests that
have all returned. -/
theorem device_populates_slot_once (acc : OpenAcc) (devCount : Nat) (pre post : List Int)
    (i : Int) (hi : inRange devCount i) (hpre : ∀ j, j ∈ pre → inRange devCount j)
    (hpost : ∀ j, j ∈ post → inRange devCount j) :
    ((∀ k, acc.acc_malloc k ≠ 0) →
      ∃ reg0 outs0 reg1 d reg2 outs,
        deviceRun acc (Devices.init devCount) pre = .ok (reg0, outs0) ∧
        DevOacc.device acc reg0 i = .ok (reg1, d) ∧
        deviceRun acc reg1 post = .ok (reg2, outs) ∧
        reg1.devices[castUnsigned i]? = some (some d) ∧
        (∀ d0, reg0.devices[castUnsigned i]? = some (some d0) → reg1 = reg0 ∧ d = d0) ∧
        (∀ s, s ≠ castUnsigned i → reg1.devices[s]? = reg0.devices[s]?) ∧
        reg2.devices[castUnsigned i]? = some (some d) ∧
        (∀ k : Nat, post[k]? = some i → outs[k]? = some d) ∧
        reg1.constructed.count i = 1 ∧ reg2.constructed.count i = 1 ∧
        (∀ j, reg2.constructed.count j ≤ 1)) ∧
      (∀ reg0 outs0 reg1 d reg2 outs,
        deviceRun acc (Devices.init devCount) pre = .ok (reg0, outs0) →
        DevOacc.device acc reg0 i = .ok (reg1, d) →
        deviceRun acc reg1 post = .ok (reg2, outs) →
        reg1.devices[castUnsigned i]? = some (some d) ∧
        (∀ d0, reg0.devices[castUnsigned i]? = some (some d0) → reg1 = reg0 ∧ d = d0) ∧
        (∀ s, s ≠ castUnsigned i → reg1.devices[s]? = reg0.devices[s]?) ∧
        reg2.devices[castUnsigned i]? = some (some d) ∧
        (∀ k : Nat, post[k]? = some i → outs[k]? = some d) ∧
        reg1.constructed.count i = 1 ∧ reg2.constructed.count i = 1 ∧
        (∀ j, reg2.constructed.count j ≤ 1)) := by
  have key : ∀ reg0 outs0 reg1 d reg2 outs,
      deviceRun acc (Devices.init devCount) pre = .ok (reg0, outs0) →
      DevOacc.device acc reg0 i = .ok (reg1, d) →
      deviceRun acc reg1 post = .ok (reg2, outs) →
      reg1.devices[castUnsigned i]? = some (some d) ∧
      (∀ d0, reg0.devices[castUnsigned i]? = some (some d0) → reg1 = reg0 ∧ d = d0) ∧
      (∀ s, s ≠ castUnsigned i → reg1.devices[s]? = reg0.devices[s]?) ∧
      reg2.devices[castUnsigned i]? = some (some d) ∧
      (∀ k : Nat, post[k]? = some i → outs[k]? = some d) ∧
      reg1.constructed.count i = 1 ∧ reg2.constructed.count i = 1 ∧
      (∀ j, reg2.constructed.count j ≤ 1) := by
    intro reg0 outs0 reg1 d reg2 outs hrun0 hdev hrun2
    obtain ⟨hinv0, _⟩ := deviceRun_spec_of_ok acc devCount pre (Devices.init devCount) reg0
      outs0 (Devices.inv_init devCount) hpre hrun0
    obtain ⟨hinv1, hpop, hsame, hother⟩ :=
      DevOacc.device_spec_of_ok acc devCount reg0 reg1 i d hinv0 hi hdev
    obtain ⟨hinv2, hkeep⟩ :=
      deviceRun_spec_of_ok acc devCount post reg1 reg2 outs hinv1 hpost hrun2
    obtain ⟨hpop2, hret⟩ := hkeep i d hpop
    obtain ⟨_, hcast⟩ := castUnsigned_of_inRange devCount i hi
    have hm1 : i ∈ reg1.constructed := by
      have := (hinv1.2.2.2 _ d hpop).2
      rwa [hcast] at this
    have hm2 : i ∈ reg2.constructed := by
      have := (hinv2.2.2.2 _ d hpop2).2
      rwa [hcast] at this
    exact ⟨hpop, hsame, hother, hpop2, hret,
      List.count_eq_one_of_mem hinv1.2.1 hm1, List.count_eq_one_of_mem hinv2.2.1 hm2,
      List.nodup_iff_count_le_one.1 hinv2.2.1⟩
  refine ⟨?_, key⟩
  intro hmalloc
  obtain ⟨reg0, outs0, hrun0, hinv0, _⟩ :=
    deviceRun_spec acc devCount hmalloc pre (Devices.init devCount) (Devices.inv_init devCount)
      hpre
  obtain ⟨reg1, d, hdev, hinv1, _⟩ :=
    DevOacc.device_spec acc devCount reg0 i (fun _ => hmalloc _) hinv0 hi
  obtain ⟨reg2, outs, hrun2, _⟩ := deviceRun_spec acc devCount hmalloc post reg1 hinv1 hpost
  exact ⟨reg0, outs0, reg1, d, reg2, outs, hrun0, hdev, hrun2,
    key reg0 outs0 reg1 d reg2 outs hrun0 hdev hrun2⟩

theorem device_populates_slot_once_witness :
    inRange 2 0 ∧ (∀ j, j ∈ [(1 : Int)] → inRange 2 j) ∧
      (∀ j, j ∈ [(1 : Int), 0] → inRange 2 j) ∧ (∀ k, exampleAcc.acc_malloc k ≠ 0) ∧
      ∃ reg0 outs0 reg1 d reg2 outs,
        deviceRun exampleAcc (Devices.init 2) [1] = .ok (reg0, outs0) ∧
        DevOacc.device exampleAcc reg0 0 = .ok (reg1, d) ∧
        deviceRun exampleAcc reg1 [1, 0] = .ok (reg2, outs) ∧
        reg1.devices[castUnsigned 0]? = some (some d) ∧
        (∀ d0, reg0.devices[castUnsigned 0]? = some (some d0) → reg1 = reg0 ∧ d = d0) ∧
        (∀ s, s ≠ castUnsigned 0 → reg1.devices[s]? = reg0.devices[s]?) ∧
        reg2.devices[castUnsigned 0]? = some (some d) ∧
        (∀ k : Nat, [(1 : Int), 0][k]? = some 0 → outs[k]? = some d) ∧
        reg1.constructed.count 0 = 1 ∧ reg2.constructed.count 0 = 1 ∧
        (∀ j, reg2.constructed.count j ≤ 1) :=
  ⟨by decide, by decide, by decide, exampleAcc_malloc_ne,
    (device_populates_slot_once exampleAcc 2 [1] [1, 0] 0 (by decide) (by decide)
      (by decide)).1 exampleAcc_malloc_ne⟩

theorem getDevByIdx_of_lt (acc : OpenAcc) (devCount : Nat) (reg : Devices) (devIdx : Nat)
    (h : devIdx < devCount) :
    getDevByIdx acc devCount reg devIdx = DevOacc.new acc reg (castInt devIdx) := by
  simp only [getDevByIdx, if_neg (Nat.not_le.2 h)]

theorem DevOacc.new_of_device (acc : OpenAcc) (reg reg1 : Devices) (i : Int) (d : DevOaccImpl)
    (h : DevOacc.device acc reg i = .ok (reg1, d)) :
    DevOacc.new acc reg i = .ok (reg1, { m_devOaccImpl := d }) := by
  simp only [DevOacc.new, h]

theorem DevOacc.new_of_crash (acc : OpenAcc) (reg : Devices) (i : Int)
    (h : DevOacc.device acc reg i = .crash) : DevOacc.new acc reg i = .crash := by
  simp only [DevOacc.new, h]

theorem castInt_castUnsigned_castInt (x : Nat) : castInt (castUnsigned (castInt x)) = castInt x := by
  rw [castUnsigned_castInt]
  unfold castInt
  simp only [Nat.mod_mod]

/-- A lookup with an index below the device count, from statics satisfying the
index invariant: either the process dies in the constructor, `acc_malloc` having
returned `nullptr`, or the lookup returns, keeps the invariant, and the handle
has the device index `static_cast<int>(devIdx)`. -/
theorem getDevByIdx_cases (acc : OpenAcc) (devCount : Nat) (reg : Devices) (devIdx : Nat)
    (hinv : Devices.IndexInv devCount reg) (hlt : devIdx < devCount) :
    (getDevByIdx acc devCount reg devIdx = .crash ∧ acc.acc_malloc reg.constructed.length = 0) ∨
      ∃ reg1 dev, getDevByIdx acc devCount reg devIdx = .ok (reg1, dev) ∧
        Devices.IndexInv devCount reg1 ∧ dev.iDevice = castInt devIdx := by
  obtain ⟨hlen, hslot⟩ := hinv
  have hidx : castUnsigned (castInt devIdx) < reg.devices.length := by
    rw [castUnsigned_castInt, hlen]
    have := Nat.mod_le devIdx 4294967296
    omega
  rw [getDevByIdx_of_lt acc devCount reg devIdx hlt]
  cases hs : reg.devices[castUnsigned (castInt devIdx)]? with
  | none =>
    rw [List.getElem?_eq_none_iff] at hs
    omega
  | some slot =>
    cases slot with
    | some d =>
      refine Or.inr ⟨reg, { m_devOaccImpl := d },
        DevOacc.new_of_device _ _ _ _ _ (DevOacc.device_populated acc reg _ d hs),
        ⟨hlen, hslot⟩, ?_⟩
      have h := hslot _ d hs
      rw [castInt_castUnsigned_castInt] at h
      exact h
    | none =>
      by_cases hm : acc.acc_malloc reg.constructed.length = 0
      · exact Or.inl ⟨DevOacc.new_of_crash _ _ _ (DevOacc.device_crash acc reg _ hs hm), hm⟩
      · refine Or.inr ⟨_, _,
          DevOacc.new_of_device _ _ _ _ _ (DevOacc.device_empty acc reg _ hs hm),
          ⟨by simp [Devices.construct, hlen], ?_⟩, rfl⟩
        intro idx d hd
        simp only [Devices.construct] at hd
        by_cases he : castUnsigned (castInt devIdx) = idx
        · subst he
          rw [List.getElem?_set_self hidx] at hd
          simp only [Option.some.injEq] at hd
          subst hd
          simp only [DevOaccImpl.built, castInt_castUnsigned_castInt]
        · rw [List.getElem?_set_ne he] at hd
          exact hslot idx d hd

theorem Devices.indexInv_of_reachable (acc : OpenAcc) (devCount : Nat) (reg : Devices)
    (h : Devices.Reachable acc devCount reg) : Devices.IndexInv devCount reg := by
  induction h with
  | init =>
    refine ⟨by simp [Devices.init], ?_⟩
    intro idx d h
    simp only [Devices.init, List.getElem?_replicate] at h
    split at h <;> simp at h
  | getDevByIdx reg reg1 devIdx dev _ hget ih =>
    by_cases hlt : devIdx < devCount
    · rcases getDevByIdx_cases acc devCount reg devIdx ih hlt with ⟨hc, _⟩ | ⟨reg1', dev', hget', hinv', _⟩
      · rw [hget] at hc
        cases hc
      · rw [hget] at hget'
        simp only [Outcome.ok.injEq, Prod.mk.injEq] at hget'
        rw [hget'.1]
        exact hinv'
    · simp [getDevByIdx, Nat.not_lt.1 hlt] at hget

/-- Claim C7. For every requested index `devIdx` and device count `devCount`
(a count of OpenACC devices, which is an `int`; in every state of the statics
that earlier lookups can have produced), `getDevByIdx` reports an error if and
only if `devIdx >= devCount`; the error is a `std::runtime_error` whose message
names the requested index and the count; and when `devIdx < devCount` it returns
a handle whose device index is `devIdx` (the runtime not returning `nullptr`
from `acc_malloc`, with which the process dies in the constructor). -/
theorem getDevByIdx_spec (acc : OpenAcc) (devCount : Nat) (reg : Devices) (devIdx : Nat)
    (hcount : isInt (devCount : Int)) (hreach : Devices.Reachable acc devCount reg) :
    ((∃ e, getDevByIdx acc devCount reg devIdx = .error e) ↔ devIdx ≥ devCount) ∧
      (devIdx ≥ devCount →
        getDevByIdx acc devCount reg devIdx
          = .error (.runtime_error
              ("Unable to return device handle for OpenACC device with index " ++ toString devIdx
                ++ " because there are only " ++ toString devCount ++ " devices!"))) ∧
      (devIdx < devCount → (∀ k, acc.acc_malloc k ≠ 0) →
        ∃ reg1 dev, getDevByIdx acc devCount reg devIdx = .ok (reg1, dev) ∧
          dev.iDevice = (devIdx : Int)) := by
  have hinv := Devices.indexInv_of_reachable acc devCount reg hreach
  refine ⟨⟨?_, ?_⟩, ?_, ?_⟩
  · rintro ⟨e, he⟩
    by_contra hlt
    rcases getDevByIdx_cases acc devCount reg devIdx hinv (by omega) with
      ⟨hc, _⟩ | ⟨reg1, dev, hd, _⟩
    · rw [hc] at he
      cases he
    · rw [hd] at he
      cases he
  · intro hge
    exact ⟨.runtime_error (getDevByIdxMessage devIdx devCount),
      by simp only [getDevByIdx, if_pos hge]⟩
  · intro hge
    simp only [getDevByIdx, if_pos hge, getDevByIdxMessage]
  · intro hlt hmalloc
    have hint : devIdx < 2147483648 := by
      have h2 := hcount.2
      omega
    rcases getDevByIdx_cases acc devCount reg devIdx hinv hlt with
      ⟨_, hm⟩ | ⟨reg1, dev, hd, _, hidx⟩
    · exact absurd hm (hmalloc _)
    · exact ⟨reg1, dev, hd, by rw [hidx, castInt_of_lt devIdx hint]⟩

theorem getDevByIdx_spec_witness :
    isInt ((2 : Nat) : Int) ∧ Devices.Reachable exampleAcc 2 (Devices.init 2) ∧
      (∀ k, exampleAcc.acc_malloc k ≠ 0) ∧
      ((∃ e, getDevByIdx exampleAcc 2 (Devices.init 2) 5 = .error e) ↔ 5 ≥ 2) ∧
      getDevByIdx exampleAcc 2 (Devices.init 2) 5
        = .error (.runtime_error
            "Unable to return device handle for OpenACC device with index 5 because there are only 2 devices!") ∧
      ∃ reg1 dev, getDevByIdx exampleAcc 2 (Devices.init 2) 1 = .ok (reg1, dev) ∧
        dev.iDevice = ((1 : Nat) : Int) :=
  ⟨by decide, .init, exampleAcc_malloc_ne,
    (getDevByIdx_spec exampleAcc 2 (Devices.init 2) 5 (by decide) .init).1,
    (getDevByIdx_spec exampleAcc 2 (Devices.init 2) 5 (by decide) .init).2.1 (by decide),
    (getDevByIdx_spec exampleAcc 2 (Devices.init 2) 1 (by decide) .init).2.2 (by decide)
      exampleAcc_malloc_ne⟩

/-- Claim C8. For all device handles `a`, `b`, `c`: `a == b` is true if and only
if the implementations of the two handles have the same device index; `==` is
reflexive, symmetric and transitive; and `a != b` is the negation of `a == b`. -/
theorem devOacc_eq_equivalence (a b c : DevOacc) :
    (DevOacc.eq a b = true ↔ a.m_devOaccImpl.iDevice = b.m_devOaccImpl.iDevice) ∧
      DevOacc.eq a a = true ∧
      DevOacc.eq a b = DevOacc.eq b a ∧
      (DevOacc.eq a b = true → DevOacc.eq b c = true → DevOacc.eq a c = true) ∧
      DevOacc.ne a b = !(DevOacc.eq a b) := by
  refine ⟨by simp [DevOacc.eq], by simp [DevOacc.eq], ?_, ?_, rfl⟩
  · simp only [DevOacc.eq]
    rw [Bool.eq_iff_iff]
    simp only [beq_iff_eq]
    exact ⟨fun h => h.symm, fun h => h.symm⟩
  · simp only [DevOacc.eq, beq_iff_eq]
    exact fun h1 h2 => h1.trans h2

theorem devOacc_eq_equivalence_witness :
    DevOacc.eq exampleDev (exampleDev.registerQueue (some 7)) = true ∧
      DevOacc.eq (exampleDev.registerQueue (some 7)) exampleDev = true ∧
      DevOacc.eq exampleDev exampleDev = true :=
  ⟨by decide, by decide,
    (devOacc_eq_equivalence exampleDev (exampleDev.registerQueue (some 7)) exampleDev).2.2.2.1
      (by decide) (by decide)⟩


/-! ## The branches of the host `memSet` -/

theorem memSet_of_asserts (memBufDst : MemBuf) (byte : Byte) (extents : Extents) (mem : Mem)
    (hpre : memSetAsserts memBufDst extents) :
    memSet memBufDst byte extents mem = some (memSetFill memBufDst byte extents mem) := by
  simp only [memSet, if_pos hpre]

/-- Claim C14. Whenever the extent width and height equal the width and height
of the destination and of its buffer base, `memSet` takes the whole-memory
branch: the fill it performs (which is its result whenever its assertions hold)
leaves the fill byte at every offset in `[0, pitch * dstHeight * extent depth)`,
the pitch bytes of every row included, and leaves every byte at or beyond that
range unchanged. -/
theorem memSet_whole_branch (memBufDst : MemBuf) (byte : Byte) (extents : Extents) (mem : Mem)
    (hw : extents.width = memBufDst.width) (hh : extents.height = memBufDst.height)
    (hbw : extents.width = memBufDst.baseWidth) (hbh : extents.height = memBufDst.baseHeight) :
    selectedTier memBufDst extents = .whole ∧
      (memSetAsserts memBufDst extents →
        memSet memBufDst byte extents mem = some (memSetFill memBufDst byte extents mem)) ∧
      (∀ a, a < memBufDst.pitchBytes * memBufDst.height * extents.depth →
        memSetFill memBufDst byte extents mem a = byte) ∧
      (∀ a, memBufDst.pitchBytes * memBufDst.height * extents.depth ≤ a →
        memSetFill memBufDst byte extents mem a = mem a) := by
  have hsel : selectedTier memBufDst extents = .whole := by
    simp [selectedTier, wholeCond, ← hw, ← hh, ← hbw, ← hbh]
  refine ⟨hsel, memSet_of_asserts memBufDst byte extents mem, ?_, ?_⟩
  · intro a ha
    rw [memSetFill_eq_forced, hsel]
    simp only [memSetForced, fillWhole, uiDstSliceSizeBytes]
    rw [std_memset_hit, toUChar_byte]
    exact ⟨Nat.zero_le _, by omega⟩
  · intro a ha
    rw [memSetFill_eq_forced, hsel]
    simp only [memSetForced, fillWhole, uiDstSliceSizeBytes]
    rw [std_memset_miss]
    omega

theorem memSet_whole_branch_witness :
    exampleExtents.width = exampleBuf.width ∧ exampleExtents.height = exampleBuf.height ∧
      exampleExtents.width = exampleBuf.baseWidth ∧
      exampleExtents.height = exampleBuf.baseHeight ∧
      selectedTier exampleBuf exampleExtents = .whole ∧
      (memSetAsserts exampleBuf exampleExtents →
        memSet exampleBuf 0xAB exampleExtents zeroMem
          = some (memSetFill exampleBuf 0xAB exampleExtents zeroMem)) ∧
      (∀ a, a < exampleBuf.pitchBytes * exampleBuf.height * exampleExtents.depth →
        memSetFill exampleBuf 0xAB exampleExtents zeroMem a = 0xAB) ∧
      (∀ a, exampleBuf.pitchBytes * exampleBuf.height * exampleExtents.depth ≤ a →
        memSetFill exampleBuf 0xAB exampleExtents zeroMem a = zeroMem a) :=
  ⟨by decide, by decide, by decide, by decide,
    memSet_whole_branch exampleBuf 0xAB exampleExtents zeroMem (by decide) (by decide)
      (by decide) (by decide)⟩

/-- Claim C15. Whenever the whole-memory condition does not hold but the extent
width equals the width of the destination and of its buffer base, `memSet` takes
the slice branch: the fill it performs (which is its result whenever its
assertions hold) sets, for each `z <` extent depth, the span
`[z * pitch * dstHeight, z * pitch * dstHeight + pitch * extent height)` to the
fill byte, and leaves every byte outside the union of these spans unchanged. -/
theorem memSet_slice_branch (memBufDst : MemBuf) (byte : Byte) (extents : Extents) (mem : Mem)
    (hnot : ¬ (extents.width = memBufDst.width ∧ extents.height = memBufDst.height ∧
      extents.width = memBufDst.baseWidth ∧ extents.height = memBufDst.baseHeight))
    (hw : extents.width = memBufDst.width) (hbw : extents.width = memBufDst.baseWidth) :
    selectedTier memBufDst extents = .slices ∧
      (memSetAsserts memBufDst extents →
        memSet memBufDst byte extents mem = some (memSetFill memBufDst byte extents mem)) ∧
      (∀ z a, z < extents.depth → z * memBufDst.pitchBytes * memBufDst.height ≤ a →
        a < z * memBufDst.pitchBytes * memBufDst.height
          + memBufDst.pitchBytes * extents.height →
        memSetFill memBufDst byte extents mem a = byte) ∧
      (∀ a, (∀ z, z < extents.depth →
          ¬ (z * memBufDst.pitchBytes * memBufDst.height ≤ a ∧
            a < z * memBufDst.pitchBytes * memBufDst.height
              + memBufDst.pitchBytes * extents.height)) →
        memSetFill memBufDst byte extents mem a = mem a) := by
  have hsel : selectedTier memBufDst extents = .slices := by
    have hwc : wholeCond memBufDst extents = false := by
      rw [Bool.eq_false_iff]
      intro hc
      apply hnot
      simp only [wholeCond, Bool.and_eq_true, beq_iff_eq] at hc
      exact ⟨hc.1.1.1, hc.1.1.2, hc.1.2, hc.2⟩
    simp [selectedTier, hwc, sliceCond, ← hw, ← hbw]
  have hreg : ∀ z a, sliceRegion memBufDst extents z a ↔
      (z * memBufDst.pitchBytes * memBufDst.height ≤ a ∧
        a < z * memBufDst.pitchBytes * memBufDst.height
          + memBufDst.pitchBytes * extents.height) := by
    intro z a
    simp only [sliceRegion, uiDstSliceSizeBytes, Nat.mul_assoc]
  refine ⟨hsel, memSet_of_asserts memBufDst byte extents mem, ?_, ?_⟩
  · intro z a hz h1 h2
    rw [memSetFill_eq_forced, hsel]
    simp only [memSetForced]
    rw [forLoop_hit (toUChar (byte.val : Int)) (sliceRegion memBufDst extents) _
      (fun k m a h => fillSlice_hit memBufDst _ extents k m a h)
      (fun k m a h => fillSlice_miss memBufDst _ extents k m a h)
      extents.depth mem a z hz ((hreg z a).2 ⟨h1, h2⟩), toUChar_byte]
  · intro a ha
    rw [memSetFill_eq_forced, hsel]
    simp only [memSetForced]
    exact forLoop_miss (sliceRegion memBufDst extents) _
      (fun k m a h => fillSlice_miss memBufDst _ extents k m a h)
      extents.depth mem a (fun z hz hr => ha z hz ((hreg z a).1 hr))

theorem memSet_slice_branch_witness :
    ¬ (packedExtents.width = packedBuf.width ∧ packedExtents.height = packedBuf.height ∧
        packedExtents.width = packedBuf.baseWidth ∧
        packedExtents.height = packedBuf.baseHeight) ∧
      packedExtents.width = packedBuf.width ∧ packedExtents.width = packedBuf.baseWidth ∧
      selectedTier packedBuf packedExtents = .slices ∧
      (memSetAsserts packedBuf packedExtents →
        memSet packedBuf 0xAB packedExtents zeroMem
          = some (memSetFill packedBuf 0xAB packedExtents zeroMem)) ∧
      (∀ z a, z < packedExtents.depth → z * packedBuf.pitchBytes * packedBuf.height ≤ a →
        a < z * packedBuf.pitchBytes * packedBuf.height
          + packedBuf.pitchBytes * packedExtents.height →
        memSetFill packedBuf 0xAB packedExtents zeroMem a = 0xAB) ∧
      (∀ a, (∀ z, z < packedExtents.depth →
          ¬ (z * packedBuf.pitchBytes * packedBuf.height ≤ a ∧
            a < z * packedBuf.pitchBytes * packedBuf.height
              + packedBuf.pitchBytes * packedExtents.height)) →
        memSetFill packedBuf 0xAB packedExtents zeroMem a = zeroMem a) :=
  ⟨by decide, by decide, by decide,
    memSet_slice_branch packedBuf 0xAB packedExtents zeroMem (by decide) (by decide)
      (by decide)⟩


/-! ## The writes of the host `memSet` -/

theorem replayMemset_append (iByte : Int) (calls : List MemsetCall) (c : MemsetCall) (mem : Mem) :
    replayMemset iByte (calls ++ [c]) mem = std_memset (replayMemset iByte calls mem) c.1 iByte c.2 := by
  simp [replayMemset, List.foldl_append]

/-- A recording loop replays to what the performing loop computes, if each
iteration does. -/
theorem replayMemset_forLoop (iByte : Int) (rec : Nat → List MemsetCall → List MemsetCall)
    (body : Nat → Mem → Mem)
    (hstep : ∀ k calls mem, replayMemset iByte (rec k calls) mem
      = body k (replayMemset iByte calls mem))
    (n : Nat) (calls : List MemsetCall) (mem : Mem) :
    replayMemset iByte (forLoop n rec calls) mem = forLoop n body (replayMemset iByte calls mem) := by
  induction n with
  | zero => rfl
  | succ n ih => simp only [forLoop, hstep, ih]

/-- The recorded calls are the calls performed: replaying them gives the fill. -/
theorem memSetForced_eq_replay (t : Tier) (memBufDst : MemBuf) (byte : Byte)
    (extents : Extents) (mem : Mem) :
    memSetForced t memBufDst byte extents mem
      = replayMemset (byte.val : Int) (memSetCallsForced t memBufDst extents) mem := by
  cases t with
  | whole => rfl
  | slices =>
    simp only [memSetForced, memSetCallsForced]
    exact (replayMemset_forLoop (byte.val : Int)
      (fun z calls =>
        calls ++ [(z * uiDstSliceSizeBytes memBufDst, memBufDst.pitchBytes * extents.height)])
      (fun z m => fillSlice memBufDst (byte.val : Int) extents z m)
      (fun k calls m => by rw [replayMemset_append]; rfl) extents.depth [] mem).symm
  | rows =>
    simp only [memSetForced, memSetCallsForced]
    exact (replayMemset_forLoop (byte.val : Int)
      (fun z calls =>
        forLoop extents.height
          (fun y calls =>
            calls ++ [(y * memBufDst.pitchBytes + z * uiDstSliceSizeBytes memBufDst,
              uiExtentWidthBytes memBufDst extents)])
          calls)
      (fun z m => fillRows memBufDst (byte.val : Int) extents z m)
      (fun z calls m => by
        simp only [fillRows]
        exact replayMemset_forLoop (byte.val : Int)
          (fun y calls =>
            calls ++ [(y * memBufDst.pitchBytes + z * uiDstSliceSizeBytes memBufDst,
              uiExtentWidthBytes memBufDst extents)])
          (fun y m =>
            std_memset m (y * memBufDst.pitchBytes + z * uiDstSliceSizeBytes memBufDst)
              (byte.val : Int) (uiExtentWidthBytes memBufDst extents))
          (fun k calls m => by rw [replayMemset_append]) extents.height calls m)
      extents.depth [] mem).symm

/-- The calls recorded by a loop: those recorded before it and those of its
iterations. -/
theorem mem_forLoop_calls (P : Nat → MemsetCall → Prop)
    (rec : Nat → List MemsetCall → List MemsetCall)
    (hrec : ∀ k calls c, c ∈ rec k calls ↔ c ∈ calls ∨ P k c)
    (n : Nat) (calls : List MemsetCall) (c : MemsetCall) :
    c ∈ forLoop n rec calls ↔ c ∈ calls ∨ ∃ k, k < n ∧ P k c := by
  induction n with
  | zero => simp [forLoop]
  | succ n ih =>
    simp only [forLoop, hrec, ih]
    constructor
    · rintro ((h | ⟨k, hk, hp⟩) | h)
      · exact Or.inl h
      · exact Or.inr ⟨k, by omega, hp⟩
      · exact Or.inr ⟨n, by omega, h⟩
    · rintro (h | ⟨k, hk, hp⟩)
      · exact Or.inl (Or.inl h)
      · by_cases hkn : k = n
        · subst hkn; exact Or.inr hp
        · exact Or.inl (Or.inr ⟨k, by omega, hp⟩)

/-- The calls of each fill strategy, spelled out. -/
theorem mem_memSetCallsForced (t : Tier) (memBufDst : MemBuf) (extents : Extents)
    (c : MemsetCall) :
    c ∈ memSetCallsForced t memBufDst extents ↔
      match t with
      | .whole => c = (0, uiDstSliceSizeBytes memBufDst * extents.depth)
      | .slices => ∃ z, z < extents.depth ∧
          c = (z * uiDstSliceSizeBytes memBufDst, memBufDst.pitchBytes * extents.height)
      | .rows => ∃ z, z < extents.depth ∧ ∃ y, y < extents.height ∧
          c = (y * memBufDst.pitchBytes + z * uiDstSliceSizeBytes memBufDst,
            uiExtentWidthBytes memBufDst extents) := by
  cases t with
  | whole => simp [memSetCallsForced]
  | slices =>
    simp only [memSetCallsForced]
    rw [mem_forLoop_calls
      (fun z c => c = (z * uiDstSliceSizeBytes memBufDst, memBufDst.pitchBytes * extents.height))
      _ (fun k calls c => by simp)]
    simp
  | rows =>
    simp only [memSetCallsForced]
    rw [mem_forLoop_calls
      (fun z c => ∃ y, y < extents.height ∧
        c = (y * memBufDst.pitchBytes + z * uiDstSliceSizeBytes memBufDst,
          uiExtentWidthBytes memBufDst extents))
      _ (fun z calls c => by
        rw [mem_forLoop_calls
          (fun y c => c = (y * memBufDst.pitchBytes + z * uiDstSliceSizeBytes memBufDst,
            uiExtentWidthBytes memBufDst extents))
          _ (fun k calls c => by simp)])]
    simp

/-- Claim C16. For every call of `memSet` whose assertions hold (extent width,
height and depth at most the destination's, extent width in bytes at most the
pitch), `memSet` returns the memory obtained by performing its recorded calls of
`std::memset`, and every byte offset written by a call, in each of the three
fill strategies, is strictly less than `pitch * dstHeight * dstDepth`: no write
falls outside the pitched storage of the destination. -/
theorem memSet_writes_in_bounds (memBufDst : MemBuf) (byte : Byte) (extents : Extents)
    (mem : Mem) (hpre : memSetAsserts memBufDst extents) :
    memSet memBufDst byte extents mem
        = some (replayMemset (byte.val : Int) (memSetCalls memBufDst extents) mem) ∧
      ∀ t c a, c ∈ memSetCallsForced t memBufDst extents → c.1 ≤ a → a < c.1 + c.2 →
        a < memBufDst.pitchBytes * memBufDst.height * memBufDst.depth := by
  constructor
  · rw [memSet_of_asserts memBufDst byte extents mem hpre, memSetFill_eq_forced,
      memSetForced_eq_replay]
    rfl
  · obtain ⟨_, hH, hD, hW⟩ := hpre
    intro t c a hc h1 h2
    rw [mem_memSetCallsForced] at hc
    have hSD : memBufDst.pitchBytes * memBufDst.height * extents.depth
        ≤ memBufDst.pitchBytes * memBufDst.height * memBufDst.depth :=
      Nat.mul_le_mul_left _ hD
    cases t with
    | whole =>
      simp only at hc
      subst hc
      simp only [uiDstSliceSizeBytes] at h2
      omega
    | slices =>
      obtain ⟨z, hz, rfl⟩ := hc
      simp only [uiDstSliceSizeBytes] at h1 h2
      have hph : memBufDst.pitchBytes * extents.height
          ≤ memBufDst.pitchBytes * memBufDst.height := Nat.mul_le_mul_left _ hH
      have h3 := slice_lt_whole (memBufDst.pitchBytes * memBufDst.height) extents.depth z
        (a - z * (memBufDst.pitchBytes * memBufDst.height)) hz (by omega)
      omega
    | rows =>
      obtain ⟨z, hz, y, hy, rfl⟩ := hc
      simp only [uiDstSliceSizeBytes] at h1 h2
      have h4 := row_lt_slice memBufDst.pitchBytes memBufDst.height y
        (a - (y * memBufDst.pitchBytes + z * (memBufDst.pitchBytes * memBufDst.height)))
        (by omega) (by omega)
      have h3 := slice_lt_whole (memBufDst.pitchBytes * memBufDst.height) extents.depth z
        (a - z * (memBufDst.pitchBytes * memBufDst.height)) hz (by omega)
      omega

theorem memSet_writes_in_bounds_witness :
    memSetAsserts exampleBuf narrowExtents ∧
      memSet exampleBuf 0xAB narrowExtents zeroMem
        = some (replayMemset (((0xAB : Byte).val : Nat) : Int)
            (memSetCalls exampleBuf narrowExtents) zeroMem) ∧
      ∀ t c a, c ∈ memSetCallsForced t exampleBuf narrowExtents → c.1 ≤ a → a < c.1 + c.2 →
        a < exampleBuf.pitchBytes * exampleBuf.height * exampleBuf.depth :=
  ⟨by decide, memSet_writes_in_bounds exampleBuf 0xAB narrowExtents zeroMem (by decide)⟩


/-! ## Construction of a device implementation -/

/-- Claim C11, as stated, fails: with a runtime whose `acc_malloc` returns
`nullptr`, the first request for index 0 propagates no error to its caller.  The
constructor does not check the pointer and writes through it, the process dies,
and there is neither an error to handle nor a next request. -/
theorem device_failed_allocation_not_reported :
    failingAcc.acc_malloc 0 = 0 ∧
      DevOacc.device failingAcc (Devices.init 2) 0 = .crash ∧
      ∀ e, DevOacc.device failingAcc (Devices.init 2) 0 ≠ .error e :=
  ⟨rfl, rfl, fun e h => by cases h⟩

/-- A request that returns leaves every populated slot as it was. -/
theorem DevOacc.device_keeps_slots (acc : OpenAcc) (reg reg1 : Devices) (i : Int)
    (d : DevOaccImpl) (h : DevOacc.device acc reg i = .ok (reg1, d)) (j : Nat)
    (d0 : DevOaccImpl) (hj : reg.devices[j]? = some (some d0)) :
    reg1.devices[j]? = some (some d0) := by
  cases hs : reg.devices[castUnsigned i]? with
  | none =>
    simp [DevOacc.device, hs] at h
  | some slot =>
    cases slot with
    | some d1 =>
      rw [DevOacc.device_populated acc reg i d1 hs] at h
      simp only [Outcome.ok.injEq, Prod.mk.injEq] at h
      rw [← h.1]
      exact hj
    | none =>
      by_cases hm : acc.acc_malloc reg.constructed.length = 0
      · rw [DevOacc.device_crash acc reg i hs hm] at h
        cases h
      · rw [DevOacc.device_empty acc reg i hs hm] at h
        simp only [Outcome.ok.injEq, Prod.mk.injEq] at h
        rw [← h.1]
        have hne : castUnsigned i ≠ j := by
          intro he
          rw [he, hj] at hs
          simp at hs
        simp only [Devices.construct, List.getElem?_set_ne hne, hj]

/-- Claim C11, amended.  A failure of the backend allocation while a device
implementation is constructed is not propagated as an error to the caller: the
constructor is `noexcept` and does not check what the backend returned, so a
request that constructs with an `acc_malloc` returning `nullptr` does not end in
an error.  When the allocation returned a pointer that is not null, the request
returns and leaves the slot populated with the implementation it returns,
constructed once for that index, and the next request for the same index returns
that implementation without constructing again.  No request that returns empties
or replaces a populated slot. -/
theorem device_construction_reports_no_failure (acc : OpenAcc) (reg : Devices) (i : Int) :
    (reg.devices[castUnsigned i]? = some none → acc.acc_malloc reg.constructed.length = 0 →
        ∀ e, DevOacc.device acc reg i ≠ .error e) ∧
      (reg.devices[castUnsigned i]? = some none → acc.acc_malloc reg.constructed.length ≠ 0 →
        ∃ reg1 d, DevOacc.device acc reg i = .ok (reg1, d) ∧
          reg1.devices[castUnsigned i]? = some (some d) ∧
          reg1.constructed = reg.constructed ++ [i] ∧
          DevOacc.device acc reg1 i = .ok (reg1, d)) ∧
      (∀ reg1 d (j : Nat) d0, DevOacc.device acc reg i = .ok (reg1, d) →
        reg.devices[j]? = some (some d0) → reg1.devices[j]? = some (some d0)) := by
  refine ⟨?_, ?_, ?_⟩
  · intro hs hm e he
    rw [DevOacc.device_crash acc reg i hs hm] at he
    cases he
  · intro hs hm
    have hlt := lt_length_of_getElem? _ _ _ hs
    have hpop : (Devices.construct reg (castUnsigned i) i
        (DevOaccImpl.built acc reg.constructed.length i)).devices[castUnsigned i]?
        = some (some (DevOaccImpl.built acc reg.constructed.length i)) := by
      simp only [Devices.construct, List.getElem?_set_self hlt]
    exact ⟨_, _, DevOacc.device_empty acc reg i hs hm, hpop, rfl,
      DevOacc.device_populated acc _ i _ hpop⟩
  · intro reg1 d j d0 h hj
    exact DevOacc.device_keeps_slots acc reg reg1 i d h j d0 hj

theorem device_construction_reports_no_failure_witness :
    (Devices.init 2).devices[castUnsigned 1]? = some none ∧
      failingAcc.acc_malloc (Devices.init 2).constructed.length = 0 ∧
      (∀ e, DevOacc.device failingAcc (Devices.init 2) 1 ≠ .error e) ∧
      exampleAcc.acc_malloc (Devices.init 2).constructed.length ≠ 0 ∧
      ∃ reg1 d, DevOacc.device exampleAcc (Devices.init 2) 1 = .ok (reg1, d) ∧
        reg1.devices[castUnsigned 1]? = some (some d) ∧
        reg1.constructed = (Devices.init 2).constructed ++ [1] ∧
        DevOacc.device exampleAcc reg1 1 = .ok (reg1, d) :=
  ⟨by decide, by decide,
    (device_construction_reports_no_failure failingAcc (Devices.init 2) 1).1 (by decide)
      (by decide),
    by decide,
    (device_construction_reports_no_failure exampleAcc (Devices.init 2) 1).2.1 (by decide)
      (by decide)⟩

/-! ## Static mapping -/

theorem DevOaccImpl.makeCurrent_idem {τ : Type} (impl : DevOaccImpl) (s : AccState τ) :
    impl.makeCurrent (impl.makeCurrent s) = impl.makeCurrent s := rfl

theorem makeCurrent_accEnterDataCreate {τ : Type} (ops : PresentOps τ) (impl : DevOaccImpl)
    (s : AccState τ) (pHost n : Nat) :
    impl.makeCurrent (accEnterDataCreate ops (impl.makeCurrent s) pHost n)
      = accEnterDataCreate ops (impl.makeCurrent s) pHost n := rfl

/-- A call of `mapStatic` on a state in which its device is current and the host
pointer is mapped returns the mapped pointer and does not change the state. -/
theorem DevOaccImpl.mapStatic_mapped {τ : Type} (ops : PresentOps τ) (impl : DevOaccImpl)
    (s : AccState τ) (pHost : Nat) (extent : List Nat)
    (hcur : impl.makeCurrent s = s) (h : accDeviceptr ops s pHost ≠ 0) :
    impl.mapStatic ops s pHost extent = some (s, accDeviceptr ops s pHost) := by
  simp only [DevOaccImpl.mapStatic, hcur, if_neg h]

/-- Claim C12. For every host pointer and extent, with the present table of the
device as part of the state: if the host pointer has a device mapping,
`mapStatic` returns that device pointer and leaves the table unchanged;
otherwise it makes one `enter data create` request for `extent.prod()` elements
and returns the pointer then mapped to the host pointer, which is not null (it
stops at its assertion if the runtime did not map the pointer).  Consequently,
after a call that returned, a second call with the same host pointer returns the
same device pointer and changes nothing. -/
theorem mapStatic_spec {τ : Type} (ops : PresentOps τ) (impl : DevOaccImpl) (s : AccState τ)
    (pHost : Nat) (extent : List Nat) :
    (ops.acc_deviceptr (s.present (impl.iDevice, impl.m_deviceType)) pHost ≠ 0 →
      impl.mapStatic ops s pHost extent
        = some ({ current := (impl.iDevice, impl.m_deviceType), present := s.present },
            ops.acc_deviceptr (s.present (impl.iDevice, impl.m_deviceType)) pHost)) ∧
      (ops.acc_deviceptr (s.present (impl.iDevice, impl.m_deviceType)) pHost = 0 →
        ops.acc_deviceptr
            (ops.enter_data_create (s.present (impl.iDevice, impl.m_deviceType)) pHost
              extent.prod) pHost ≠ 0 →
        impl.mapStatic ops s pHost extent
          = some ({ current := (impl.iDevice, impl.m_deviceType),
                    present := Function.update s.present (impl.iDevice, impl.m_deviceType)
                      (ops.enter_data_create (s.present (impl.iDevice, impl.m_deviceType)) pHost
                        extent.prod) },
              ops.acc_deviceptr
                (ops.enter_data_create (s.present (impl.iDevice, impl.m_deviceType)) pHost
                  extent.prod) pHost)) ∧
      (ops.acc_deviceptr (s.present (impl.iDevice, impl.m_deviceType)) pHost = 0 →
        ops.acc_deviceptr
            (ops.enter_data_create (s.present (impl.iDevice, impl.m_deviceType)) pHost
              extent.prod) pHost = 0 →
        impl.mapStatic ops s pHost extent = none) ∧
      (∀ s1 pDev, impl.mapStatic ops s pHost extent = some (s1, pDev) →
        pDev ≠ 0 ∧ ∀ extent2, impl.mapStatic ops s1 pHost extent2 = some (s1, pDev)) := by
  refine ⟨?_, ?_, ?_, ?_⟩
  · intro h
    simp only [DevOaccImpl.mapStatic, DevOaccImpl.makeCurrent, accDeviceptr, if_neg h]
  · intro h0 h1
    simp [DevOaccImpl.mapStatic, DevOaccImpl.makeCurrent, accDeviceptr, accEnterDataCreate,
      h0, h1]
  · intro h0 h1
    simp [DevOaccImpl.mapStatic, DevOaccImpl.makeCurrent, accDeviceptr, accEnterDataCreate,
      h0, h1]
  · intro s1 pDev hret
    by_cases h0 : accDeviceptr ops (impl.makeCurrent s) pHost = 0
    · by_cases h1 : accDeviceptr ops
          (accEnterDataCreate ops (impl.makeCurrent s) pHost extent.prod) pHost = 0
      · simp [DevOaccImpl.mapStatic, h0, h1] at hret
      · simp only [DevOaccImpl.mapStatic, h0, if_true, ne_eq, h1, not_false_eq_true,
          Option.some.injEq, Prod.mk.injEq] at hret
        obtain ⟨hs, hp⟩ := hret
        subst hs; subst hp
        exact ⟨h1, fun extent2 => DevOaccImpl.mapStatic_mapped ops impl _ pHost extent2
          (makeCurrent_accEnterDataCreate ops impl s pHost extent.prod) h1⟩
    · simp only [DevOaccImpl.mapStatic, h0, if_false, Option.some.injEq, Prod.mk.injEq] at hret
      obtain ⟨hs, hp⟩ := hret
      subst hs; subst hp
      exact ⟨h0, fun extent2 => DevOaccImpl.mapStatic_mapped ops impl _ pHost extent2
        (DevOaccImpl.makeCurrent_idem impl s) h0⟩


theorem mapStatic_spec_witness :
    tableOps.acc_deviceptr
        (emptyAccState.present
          (exampleDev.m_devOaccImpl.iDevice, exampleDev.m_devOaccImpl.m_deviceType)) 1000 = 0 ∧
      tableOps.acc_deviceptr
        (tableOps.enter_data_create
          (emptyAccState.present
            (exampleDev.m_devOaccImpl.iDevice, exampleDev.m_devOaccImpl.m_deviceType))
          1000 [2, 3].prod) 1000 ≠ 0 ∧
      ∃ s1, exampleDev.m_devOaccImpl.mapStatic tableOps emptyAccState 1000 [2, 3]
          = some (s1, 4096) ∧
        ∀ extent2, exampleDev.m_devOaccImpl.mapStatic tableOps s1 1000 extent2
          = some (s1, 4096) :=
  ⟨by decide, by decide, _,
    (mapStatic_spec tableOps exampleDev.m_devOaccImpl emptyAccState 1000 [2, 3]).2.1
      (by decide) (by decide),
    ((mapStatic_spec tableOps exampleDev.m_devOaccImpl emptyAccState 1000 [2, 3]).2.2.2 _ 4096
      ((mapStatic_spec tableOps exampleDev.m_devOaccImpl emptyAccState 1000 [2, 3]).2.1
        (by decide) (by decide))).2⟩


/-! ## Concurrent requests for device implementations -/

/-- Populating an empty slot with an implementation of its own index keeps the
invariant of the statics. -/
theorem Devices.inv_construct (devCount : Nat) (reg : Devices) (i : Int) (impl : DevOaccImpl)
    (hinv : Devices.Inv devCount reg) (hi : inRange devCount i)
    (hs : reg.devices[castUnsigned i]? = some none) (himpl : impl.m_iDevice = i) :
    Devices.Inv devCount (Devices.construct reg (castUnsigned i) i impl) := by
  obtain ⟨hlen, hnd, hcon, hslot⟩ := hinv
  obtain ⟨hidx, hcast⟩ := castUnsigned_of_inRange devCount i hi
  have hlt : castUnsigned i < reg.devices.length := by omega
  have hnotin : i ∉ reg.constructed := by
    intro hm
    obtain ⟨_, d, hd⟩ := hcon i hm
    rw [hs] at hd
    simp at hd
  refine ⟨?_, ?_, ?_, ?_⟩
  · simp [Devices.construct, hlen]
  · simp only [Devices.construct]
    rw [List.nodup_append]
    exact ⟨hnd, List.nodup_singleton _, by
      intro a ha hb
      simp at hb
      exact hnotin (hb ▸ ha)⟩
  · intro j hj
    simp only [Devices.construct, List.mem_append, List.mem_singleton] at hj
    rcases hj with hj | hj
    · obtain ⟨hr, d, hd⟩ := hcon j hj
      refine ⟨hr, d, ?_⟩
      have hne : castUnsigned i ≠ castUnsigned j := by
        intro he
        rw [← he, hs] at hd
        simp at hd
      simp only [Devices.construct, List.getElem?_set_ne hne, hd]
    · subst hj
      exact ⟨hi, impl, by simp only [Devices.construct, List.getElem?_set_self hlt]⟩
  · intro idx d hd
    simp only [Devices.construct] at hd ⊢
    by_cases he : castUnsigned i = idx
    · subst he
      rw [List.getElem?_set_self hlt] at hd
      simp only [Option.some.injEq] at hd
      subst hd
      simp [himpl, hcast]
    · rw [List.getElem?_set_ne he] at hd
      obtain ⟨h1, h2⟩ := hslot idx d hd
      exact ⟨h1, List.mem_append_left _ h2⟩

theorem DevOaccImpl.new_eq_some (acc : OpenAcc) (k : Nat) (i : Int) (impl : DevOaccImpl)
    (h : DevOaccImpl.new acc k i = some impl) :
    acc.acc_malloc k ≠ 0 ∧ impl = DevOaccImpl.built acc k i := by
  unfold DevOaccImpl.new at h
  split at h
  · cases h
  · rename_i hm
    simp only [Option.some.injEq] at h
    exact ⟨hm, h.symm⟩

/-- The invariant of a thread does not depend on the statics beyond the slot of
the thread, which may change from populated to the same populated slot, unless
the thread is at the construction. -/
theorem DevThread.ok_of_slots (devCount : Nat) (reg reg1 : Devices) (mutex : Option Nat)
    (t : Nat) (th : DevThread) (h : DevThread.Ok devCount reg mutex t th)
    (hpc : th.pc ≠ .construct)
    (hmono : ∀ d, reg.devices[castUnsigned th.iDevice]? = some (some d) →
      reg1.devices[castUnsigned th.iDevice]? = some (some d)) :
    DevThread.Ok devCount reg1 mutex t th := by
  obtain ⟨h1, h2, _, h4, h5, h6⟩ := h
  refine ⟨h1, h2, fun hc => absurd hc hpc, ?_, ?_, h6⟩
  · intro hp
    obtain ⟨d, hd⟩ := h4 hp
    exact ⟨d, hmono d hd⟩
  · intro hp
    obtain ⟨d, hr, hd⟩ := h5 hp
    exact ⟨d, hr, hmono d hd⟩

/-- The invariant of a thread depends on the mutex only through whether the
thread holds it. -/
theorem DevThread.ok_of_mutex (devCount : Nat) (reg : Devices) (mutex mutex1 : Option Nat)
    (t : Nat) (th : DevThread) (h : DevThread.Ok devCount reg mutex t th)
    (hm : mutex = some t ↔ mutex1 = some t) : DevThread.Ok devCount reg mutex1 t th := by
  obtain ⟨h1, h2, h3, h4, h5, h6⟩ := h
  exact ⟨h1, h2.trans hm, h3, h4, h5, h6⟩

/-- The invariant of the system after thread `t` and the statics have changed. -/
theorem DevSystem.inv_update (devCount : Nat) (s : DevSystem) (t : Nat) (th1 : DevThread)
    (reg1 : Devices) (mutex1 : Option Nat) (dead1 : Bool)
    (ht : t < s.threads.length) (hreg : Devices.Inv devCount reg1)
    (hok : DevThread.Ok devCount reg1 mutex1 t th1)
    (hothers : ∀ t2 th2, t2 ≠ t → s.threads[t2]? = some th2 →
      DevThread.Ok devCount reg1 mutex1 t2 th2)
    (hmutex : ∀ t2, mutex1 = some t2 → t2 < s.threads.length) :
    DevSystem.Inv devCount
      { reg := reg1, mutex := mutex1, threads := s.threads.set t th1, dead := dead1 } := by
  refine ⟨hreg, ?_, ?_⟩
  · intro t2 th2 h2
    simp only at h2
    by_cases he : t = t2
    · subst he
      rw [List.getElem?_set_self ht] at h2
      simp only [Option.some.injEq] at h2
      subst h2
      exact hok
    · rw [List.getElem?_set_ne he] at h2
      exact hothers t2 th2 (Ne.symm he) h2
  · intro t2 h2
    simp only [List.length_set]
    exact hmutex t2 h2

theorem slot_ne_none_of_inRange (devCount : Nat) (reg : Devices) (i : Int)
    (hinv : Devices.Inv devCount reg) (hi : inRange devCount i) :
    reg.devices[castUnsigned i]? ≠ none := by
  intro h
  rw [List.getElem?_eq_none_iff] at h
  have := (castUnsigned_of_inRange devCount i hi).1
  have := hinv.1
  omega

/-- Every step of a thread keeps the invariant of the system. -/
theorem DevSystem.inv_step (acc : OpenAcc) (devCount : Nat) (s s1 : DevSystem) (t : Nat)
    (hinv : DevSystem.Inv devCount s) (hstep : s.step acc t = some s1) :
    DevSystem.Inv devCount s1 := by
  obtain ⟨hreg, hthreads, hmutex⟩ := hinv
  unfold DevSystem.step at hstep
  split at hstep
  · cases hstep
  cases hth : s.threads[t]? with
  | none => simp [hth] at hstep
  | some th =>
    simp only [hth] at hstep
    have ht : t < s.threads.length := lt_length_of_getElem? _ _ _ hth
    have hok := hthreads t th hth
    obtain ⟨hr, hlk, hcon, hpop, hdone, hthrew⟩ := hok
    have hslot := slot_ne_none_of_inRange devCount s.reg th.iDevice hreg hr
    unfold DevSystem.stepThread at hstep
    cases hpc : th.pc with
    | check1 =>
      simp only [hpc] at hstep
      have hnl : ¬ s.mutex = some t := fun h => by
        have := hlk.2 h
        simp [hpc, Pc.locked] at this
      cases hsl : s.reg.devices[castUnsigned th.iDevice]? with
      | none => exact absurd hsl hslot
      | some slot =>
        cases slot with
        | none =>
          simp only [hsl, Option.some.injEq] at hstep
          subst hstep
          exact DevSystem.inv_update devCount s t _ s.reg s.mutex s.dead ht hreg
            ⟨hr, by simp [Pc.locked, hnl], by simp, by simp, by simp, by simp⟩
            (fun t2 th2 _ h2 => hthreads t2 th2 h2) hmutex
        | some d =>
          simp only [hsl, Option.some.injEq] at hstep
          subst hstep
          exact DevSystem.inv_update devCount s t _ s.reg s.mutex s.dead ht hreg
            ⟨hr, by simp [Pc.locked, hnl], by simp, fun _ => ⟨d, hsl⟩, by simp, by simp⟩
            (fun t2 th2 _ h2 => hthreads t2 th2 h2) hmutex
    | lock =>
      simp only [hpc] at hstep
      cases hmx : s.mutex with
      | some t0 => simp [hmx] at hstep
      | none =>
        simp only [hmx, Option.some.injEq] at hstep
        subst hstep
        refine DevSystem.inv_update devCount s t _ s.reg (some t) s.dead ht hreg
          ⟨hr, by simp [Pc.locked], by simp, by simp, by simp, by simp⟩ ?_ ?_
        · intro t2 th2 hne h2
          exact DevThread.ok_of_mutex devCount s.reg s.mutex (some t) t2 th2 (hthreads t2 th2 h2)
            (by simp [hmx]; exact fun h => hne h.symm)
        · intro t2 h2
          simp only [Option.some.injEq] at h2
          omega
    | check2 =>
      simp only [hpc] at hstep
      have hheld : s.mutex = some t := hlk.1 (by simp [hpc, Pc.locked])
      cases hsl : s.reg.devices[castUnsigned th.iDevice]? with
      | none => exact absurd hsl hslot
      | some slot =>
        cases slot with
        | none =>
          simp only [hsl, Option.some.injEq] at hstep
          subst hstep
          exact DevSystem.inv_update devCount s t _ s.reg s.mutex s.dead ht hreg
            ⟨hr, by simp [Pc.locked, hheld], fun _ => hsl, by simp, by simp, by simp⟩
            (fun t2 th2 _ h2 => hthreads t2 th2 h2) hmutex
        | some d =>
          simp only [hsl, Option.some.injEq] at hstep
          subst hstep
          exact DevSystem.inv_update devCount s t _ s.reg s.mutex s.dead ht hreg
            ⟨hr, by simp [Pc.locked, hheld], by simp, fun _ => ⟨d, hsl⟩, by simp, by simp⟩
            (fun t2 th2 _ h2 => hthreads t2 th2 h2) hmutex
    | construct =>
      simp only [hpc] at hstep
      have hheld : s.mutex = some t := hlk.1 (by simp [hpc, Pc.locked])
      have hempty := hcon hpc
      cases hnew : DevOaccImpl.new acc s.reg.constructed.length th.iDevice with
      | none =>
        simp only [hnew, Option.some.injEq] at hstep
        subst hstep
        exact ⟨hreg, hthreads, hmutex⟩
      | some impl =>
        simp only [hnew, Option.some.injEq] at hstep
        subst hstep
        obtain ⟨_, himpl⟩ := DevOaccImpl.new_eq_some acc _ _ impl hnew
        have hlt : castUnsigned th.iDevice < s.reg.devices.length :=
          lt_length_of_getElem? _ _ _ hempty
        refine DevSystem.inv_update devCount s t _ _ s.mutex s.dead ht
          (Devices.inv_construct devCount s.reg th.iDevice impl hreg hr hempty
            (by rw [himpl]; rfl))
          ⟨hr, by simp [Pc.locked, hheld], by simp,
            fun _ => ⟨impl, by simp only [Devices.construct, List.getElem?_set_self hlt]⟩,
            by simp, by simp⟩ ?_ hmutex
        intro t2 th2 hne h2
        have hok2 := hthreads t2 th2 h2
        refine DevThread.ok_of_slots devCount s.reg _ s.mutex t2 th2 hok2 ?_ ?_
        · intro hc
          have h3 := hok2.2.1.1 (by simp [hc, Pc.locked])
          rw [hheld] at h3
          simp only [Option.some.injEq] at h3
          exact hne h3.symm
        · intro d hd
          have hne2 : castUnsigned th.iDevice ≠ castUnsigned th2.iDevice := by
            intro he
            rw [he, hd] at hempty
            simp at hempty
          simp only [Devices.construct, List.getElem?_set_ne hne2, hd]
    | unlock =>
      simp only [hpc, Option.some.injEq] at hstep
      subst hstep
      have hheld : s.mutex = some t := hlk.1 (by simp [hpc, Pc.locked])
      refine DevSystem.inv_update devCount s t _ s.reg none s.dead ht hreg
        ⟨hr, by simp [Pc.locked], by simp, fun _ => hpop (Or.inl hpc), by simp, by simp⟩ ?_
        (by simp)
      intro t2 th2 hne h2
      exact DevThread.ok_of_mutex devCount s.reg s.mutex none t2 th2 (hthreads t2 th2 h2)
        (by simp [hheld]; exact fun h => hne h.symm)
    | ret =>
      simp only [hpc] at hstep
      have hnl : ¬ s.mutex = some t := fun h => by
        have := hlk.2 h
        simp [hpc, Pc.locked] at this
      obtain ⟨d, hd⟩ := hpop (Or.inr hpc)
      simp only [hd, Option.some.injEq] at hstep
      subst hstep
      exact DevSystem.inv_update devCount s t _ s.reg s.mutex s.dead ht hreg
        ⟨hr, by simp [Pc.locked, hnl], by simp, by simp, fun _ => ⟨d, rfl, hd⟩, by simp⟩
        (fun t2 th2 _ h2 => hthreads t2 th2 h2) hmutex
    | done => simp [hpc] at hstep
    | threw => simp [hpc] at hstep


theorem DevSystem.inv_run (acc : OpenAcc) (devCount : Nat) (sched : List Nat) :
    ∀ s : DevSystem, DevSystem.Inv devCount s → DevSystem.Inv devCount (s.run acc sched) := by
  induction sched with
  | nil => exact fun s h => h
  | cons t ts ih =>
    intro s h
    simp only [DevSystem.run]
    cases hs : s.step acc t with
    | none => exact ih s h
    | some s1 => exact ih s1 (DevSystem.inv_step acc devCount s s1 t h hs)

theorem DevSystem.inv_init_threads (devCount : Nat) (reqs : List Int)
    (hreq : ∀ i, i ∈ reqs → inRange devCount i) :
    DevSystem.Inv devCount (DevSystem.init devCount reqs) := by
  refine ⟨Devices.inv_init devCount, ?_, by simp [DevSystem.init]⟩
  intro t th h
  simp only [DevSystem.init, List.getElem?_map, Option.map_eq_some'] at h
  obtain ⟨i, hi, rfl⟩ := h
  exact ⟨hreq i (List.mem_iff_getElem?.2 ⟨t, hi⟩), by simp [Pc.locked, DevSystem.init], by simp,
    by simp, by simp, by simp⟩

theorem map_set_of_eq {α β : Type} (f : α → β) (l : List α) (t : Nat) (x y : α)
    (hx : l[t]? = some x) (hf : f y = f x) : (l.set t y).map f = l.map f := by
  induction l generalizing t with
  | nil => simp
  | cons a l ih =>
    cases t with
    | zero =>
      simp only [List.getElem?_cons_zero, Option.some.injEq] at hx
      subst hx
      simp [hf]
    | succ t =>
      simp only [List.getElem?_cons_succ] at hx
      simp [ih t hx]

theorem sum_map_set_lt {α : Type} (g : α → Nat) (l : List α) (t : Nat) (x y : α)
    (hx : l[t]? = some x) (hg : g y < g x) : ((l.set t y).map g).sum < (l.map g).sum := by
  induction l generalizing t with
  | nil => simp at hx
  | cons a l ih =>
    cases t with
    | zero =>
      simp only [List.getElem?_cons_zero, Option.some.injEq] at hx
      subst hx
      simp only [List.set_cons_zero, List.map_cons, List.sum_cons]
      omega
    | succ t =>
      simp only [List.getElem?_cons_succ] at hx
      have := ih t hx
      simp only [List.set_cons_succ, List.map_cons, List.sum_cons]
      omega

/-- A step changes the place and the result of the stepping thread only: the
requests of the threads stay what they were. -/
theorem DevSystem.step_requests (acc : OpenAcc) (s s1 : DevSystem) (t : Nat)
    (hstep : s.step acc t = some s1) :
    s1.threads.map (fun th => th.iDevice) = s.threads.map (fun th => th.iDevice) := by
  unfold DevSystem.step at hstep
  split at hstep
  · cases hstep
  cases hth : s.threads[t]? with
  | none => simp [hth] at hstep
  | some th =>
    simp only [hth] at hstep
    have key : ∀ th1 : DevThread, th1.iDevice = th.iDevice →
        (s.threads.set t th1).map (fun th => th.iDevice) = s.threads.map (fun th => th.iDevice) :=
      fun th1 h1 => map_set_of_eq (fun th => th.iDevice) s.threads t th th1 hth h1
    unfold DevSystem.stepThread at hstep
    cases hpc : th.pc <;> simp only [hpc] at hstep
    · split at hstep <;> simp only [Option.some.injEq] at hstep <;> subst hstep <;>
        exact key _ rfl
    · split at hstep
      · simp only [Option.some.injEq] at hstep
        subst hstep
        exact key _ rfl
      · cases hstep
    · split at hstep <;> simp only [Option.some.injEq] at hstep <;> subst hstep <;>
        exact key _ rfl
    · split at hstep <;> simp only [Option.some.injEq] at hstep <;> subst hstep
      · rfl
      · exact key _ rfl
    · simp only [Option.some.injEq] at hstep
      subst hstep
      exact key _ rfl
    · split at hstep <;> simp only [Option.some.injEq] at hstep <;> subst hstep
      · exact key _ rfl
      · rfl
    · cases hstep
    · cases hstep

theorem DevSystem.run_requests (acc : OpenAcc) (sched : List Nat) :
    ∀ s : DevSystem,
      (s.run acc sched).threads.map (fun th => th.iDevice)
        = s.threads.map (fun th => th.iDevice) := by
  induction sched with
  | nil => exact fun s => rfl
  | cons t ts ih =>
    intro s
    simp only [DevSystem.run]
    cases hs : s.step acc t with
    | none => exact ih s
    | some s1 => rw [ih s1, DevSystem.step_requests acc s s1 t hs]

/-- When `acc_malloc` never returns `nullptr`, a step from a state satisfying the
invariant leaves the process alive and brings the stepping thread nearer to its
return. -/
theorem DevSystem.step_progress (acc : OpenAcc) (devCount : Nat) (s s1 : DevSystem) (t : Nat)
    (hmalloc : ∀ k, acc.acc_malloc k ≠ 0) (hinv : DevSystem.Inv devCount s)
    (hstep : s.step acc t = some s1) :
    s1.dead = false ∧ s1.remaining < s.remaining := by
  obtain ⟨hreg, hthreads, hmutex⟩ := hinv
  unfold DevSystem.step at hstep
  split at hstep
  · cases hstep
  rename_i hdead
  have hdead : s.dead = false := by simpa using hdead
  cases hth : s.threads[t]? with
  | none => simp [hth] at hstep
  | some th =>
    simp only [hth] at hstep
    obtain ⟨hr, hlk, hcon, hpop, hdone, hthrew⟩ := hthreads t th hth
    have key : ∀ th1 : DevThread, th1.pc.remaining < th.pc.remaining →
        ((s.threads.set t th1).map (fun th => th.pc.remaining)).sum
          < (s.threads.map (fun th => th.pc.remaining)).sum :=
      fun th1 h1 => sum_map_set_lt (fun th => th.pc.remaining) s.threads t th th1 hth h1
    unfold DevSystem.stepThread at hstep
    cases hpc : th.pc with
    | check1 =>
      simp only [hpc] at hstep
      split at hstep <;> simp only [Option.some.injEq] at hstep <;> subst hstep <;>
        exact ⟨hdead, key _ (by simp [hpc, Pc.remaining])⟩
    | lock =>
      simp only [hpc] at hstep
      split at hstep
      · simp only [Option.some.injEq] at hstep
        subst hstep
        exact ⟨hdead, key _ (by simp [hpc, Pc.remaining])⟩
      · cases hstep
    | check2 =>
      simp only [hpc] at hstep
      split at hstep <;> simp only [Option.some.injEq] at hstep <;> subst hstep <;>
        exact ⟨hdead, key _ (by simp [hpc, Pc.remaining])⟩
    | construct =>
      simp only [hpc] at hstep
      cases hnew : DevOaccImpl.new acc s.reg.constructed.length th.iDevice with
      | none =>
        simp [DevOaccImpl.new, hmalloc] at hnew
      | some impl =>
        simp only [hnew, Option.some.injEq] at hstep
        subst hstep
        exact ⟨hdead, key _ (by simp [hpc, Pc.remaining])⟩
    | unlock =>
      simp only [hpc, Option.some.injEq] at hstep
      subst hstep
      exact ⟨hdead, key _ (by simp [hpc, Pc.remaining])⟩
    | ret =>
      simp only [hpc] at hstep
      obtain ⟨d, hd⟩ := hpop (Or.inr hpc)
      simp only [hd, Option.some.injEq] at hstep
      subst hstep
      exact ⟨hdead, key _ (by simp [hpc, Pc.remaining])⟩
    | done => simp [hpc] at hstep
    | threw => simp [hpc] at hstep

theorem DevSystem.run_alive (acc : OpenAcc) (devCount : Nat)
    (hmalloc : ∀ k, acc.acc_malloc k ≠ 0) (sched : List Nat) :
    ∀ s : DevSystem, DevSystem.Inv devCount s → s.dead = false →
      (s.run acc sched).dead = false := by
  induction sched with
  | nil => exact fun s _ h => h
  | cons t ts ih =>
    intro s hinv hd
    simp only [DevSystem.run]
    cases hs : s.step acc t with
    | none => exact ih s hinv hd
    | some s1 =>
      exact ih s1 (DevSystem.inv_step acc devCount s s1 t hinv hs)
        (DevSystem.step_progress acc devCount s s1 t hmalloc hinv hs).1

/-- No deadlock: while the process is alive and some thread has not returned,
some thread can take a step. -/
theorem DevSystem.exists_step (acc : OpenAcc) (devCount : Nat) (s : DevSystem)
    (hinv : DevSystem.Inv devCount s) (hdead : s.dead = false)
    (hrun : ∃ (t : Nat) (th : DevThread), s.threads[t]? = some th ∧ th.pc ≠ Pc.done) :
    ∃ t s1, s.step acc t = some s1 := by
  obtain ⟨hreg, hthreads, hmutex⟩ := hinv
  have hstep : ∀ t th, s.threads[t]? = some th →
      s.step acc t = s.stepThread acc t th := by
    intro t th hth
    simp [DevSystem.step, hdead, hth]
  cases hmx : s.mutex with
  | some t0 =>
    have ht0 := hmutex t0 hmx
    have hth0 : s.threads[t0]? = some (s.threads[t0]) := List.getElem?_eq_getElem ht0
    obtain ⟨_, hlk, _⟩ := hthreads t0 _ hth0
    have hl := hlk.2 hmx
    refine ⟨t0, ?_⟩
    rw [hstep t0 _ hth0]
    unfold DevSystem.stepThread
    cases hpc : (s.threads[t0]).pc <;> simp [hpc, Pc.locked] at hl ⊢
    · split <;> exact ⟨_, rfl⟩
    · split <;> exact ⟨_, rfl⟩
  | none =>
    obtain ⟨t, th, hth, hnd⟩ := hrun
    obtain ⟨_, hlk, _, _, _, hthrew⟩ := hthreads t th hth
    have hl : th.pc.locked ≠ true := fun h => by
      have := hlk.1 h
      rw [hmx] at this
      cases this
    refine ⟨t, ?_⟩
    rw [hstep t th hth]
    unfold DevSystem.stepThread
    cases hpc : th.pc <;> simp [hpc, Pc.locked] at hl hnd hthrew ⊢
    · split <;> exact ⟨_, rfl⟩
    · simp [hmx]
    · split <;> exact ⟨_, rfl⟩

theorem sum_map_eq_zero {α : Type} (g : α → Nat) (l : List α) (h : (l.map g).sum = 0)
    (x : α) (hx : x ∈ l) : g x = 0 := by
  induction l with
  | nil => cases hx
  | cons a l ih =>
    simp only [List.map_cons, List.sum_cons] at h
    rcases List.mem_cons.1 hx with hx | hx
    · subst hx; omega
    · exact ih (by omega) hx

/-- When `acc_malloc` never returns `nullptr`, the threads of a live system
satisfying the invariant can all be brought to their return. -/
theorem DevSystem.exists_completion (acc : OpenAcc) (devCount : Nat)
    (hmalloc : ∀ k, acc.acc_malloc k ≠ 0) (n : Nat) :
    ∀ s : DevSystem, DevSystem.Inv devCount s → s.dead = false → s.remaining ≤ n →
      ∃ sched, (s.run acc sched).dead = false ∧
        ∀ th, th ∈ (s.run acc sched).threads → th.pc = .done := by
  induction n with
  | zero =>
    intro s hinv hd hn
    refine ⟨[], hd, ?_⟩
    intro th hth
    have hth : th ∈ s.threads := hth
    have h0 := sum_map_eq_zero (fun th => th.pc.remaining) s.threads (by
      simp only [DevSystem.remaining] at hn; omega) th hth
    obtain ⟨t, ht, hget⟩ := List.getElem_of_mem hth
    have hok := hinv.2.1 t th (by rw [List.getElem?_eq_getElem ht, hget])
    have hthrew := hok.2.2.2.2.2
    cases hpc : th.pc <;> simp [hpc, Pc.remaining] at h0 hthrew ⊢
  | succ n ih =>
    intro s hinv hd hn
    by_cases hall : ∀ th, th ∈ s.threads → th.pc = .done
    · exact ⟨[], hd, hall⟩
    · have hrun : ∃ (t : Nat) (th : DevThread), s.threads[t]? = some th ∧ th.pc ≠ Pc.done := by
        by_contra hc
        apply hall
        intro th hth
        obtain ⟨t, ht, hget⟩ := List.getElem_of_mem hth
        by_contra hnd
        exact hc ⟨t, th, by rw [List.getElem?_eq_getElem ht, hget], hnd⟩
      obtain ⟨t, s1, hs⟩ := DevSystem.exists_step acc devCount s hinv hd hrun
      obtain ⟨hd1, hlt⟩ := DevSystem.step_progress acc devCount s s1 t hmalloc hinv hs
      obtain ⟨sched, h1, h2⟩ := ih s1 (DevSystem.inv_step acc devCount s s1 t hinv hs) hd1
        (by omega)
      exact ⟨t :: sched, by simp only [DevSystem.run, hs]; exact h1,
        by simp only [DevSystem.run, hs]; exact h2⟩


theorem DevSystem.run_append (acc : OpenAcc) (sched1 sched2 : List Nat) :
    ∀ s : DevSystem, s.run acc (sched1 ++ sched2) = (s.run acc sched1).run acc sched2 := by
  induction sched1 with
  | nil => exact fun s => rfl
  | cons t ts ih =>
    intro s
    simp only [List.cons_append, DevSystem.run]
    cases s.step acc t with
    | none => exact ih s
    | some s1 => exact ih s1

/-- What the invariant gives for the threads that have returned: the result of
each is what its slot holds, and the constructor was called exactly once for its
index. -/
theorem DevSystem.done_of_inv (devCount : Nat) (s : DevSystem) (hinv : DevSystem.Inv devCount s)
    (t : Nat) (th : DevThread) (hth : s.threads[t]? = some th) (hdone : th.pc = .done) :
    ∃ d, th.result = some d ∧ s.reg.devices[castUnsigned th.iDevice]? = some (some d) ∧
      s.reg.constructed.count th.iDevice = 1 := by
  obtain ⟨hr, _, _, _, hd, _⟩ := hinv.2.1 t th hth
  obtain ⟨d, hres, hslot⟩ := hd hdone
  have hmem := (hinv.1.2.2.2 _ d hslot).2
  rw [(castUnsigned_of_inRange devCount th.iDevice hr).2] at hmem
  exact ⟨d, hres, hslot, List.count_eq_one_of_mem hinv.1.2.1 hmem⟩

/-- The race of the double-checked locking is reachable: in `raceSystem` both
threads can find the slot empty at the first check and go on to wait for the
mutex; run to the end of `raceSchedule`, both have returned the one
implementation that was constructed. -/
theorem raceSchedule_runs :
    raceSystem.run exampleAcc [0, 1]
        = { reg := Devices.init 2, mutex := none,
            threads := [{ iDevice := 0, pc := .lock, result := none },
              { iDevice := 0, pc := .lock, result := none }],
            dead := false } ∧
      raceSystem.run exampleAcc raceSchedule
        = { reg := { devices := [some (DevOaccImpl.built exampleAcc 0 0), none],
                     constructed := [0] },
            mutex := none,
            threads := [{ iDevice := 0, pc := .done,
                          result := some (DevOaccImpl.built exampleAcc 0 0) },
              { iDevice := 0, pc := .done, result := some (DevOaccImpl.built exampleAcc 0 0) }],
            dead := false } := by
  constructor <;> decide

/-- Claim C13. Let any number of threads each request a device index in range,
their accesses to the shared statics of `device` being interleaved in any order
(each access one step, the mutex taken only when it is free).  Whatever the
interleaving: the constructor is called at most once for every index; every
thread that has returned holds the implementation that the slot of its index
holds, for which the constructor was called exactly once, so that threads that
requested the same index hold the same implementation.  When the runtime never
returns `nullptr` from `acc_malloc`, the process stays alive, some thread can
take a step as long as some thread has not returned, and the interleaving can be
continued so that every thread returns. -/
theorem concurrent_device_constructs_once (acc : OpenAcc) (devCount : Nat) (reqs : List Int)
    (sched : List Nat) (hreq : ∀ i, i ∈ reqs → inRange devCount i) :
    ((DevSystem.init devCount reqs).run acc sched).threads.map (fun th => th.iDevice) = reqs ∧
      (∀ j, ((DevSystem.init devCount reqs).run acc sched).reg.constructed.count j ≤ 1) ∧
      (∀ (t : Nat) (th : DevThread),
        ((DevSystem.init devCount reqs).run acc sched).threads[t]? = some th → th.pc = .done →
        ∃ d, th.result = some d ∧
          ((DevSystem.init devCount reqs).run acc sched).reg.devices[castUnsigned th.iDevice]?
            = some (some d) ∧
          ((DevSystem.init devCount reqs).run acc sched).reg.constructed.count th.iDevice = 1) ∧
      (∀ (t1 t2 : Nat) (th1 th2 : DevThread),
        ((DevSystem.init devCount reqs).run acc sched).threads[t1]? = some th1 →
        ((DevSystem.init devCount reqs).run acc sched).threads[t2]? = some th2 →
        th1.pc = .done → th2.pc = .done → th1.iDevice = th2.iDevice →
        th1.result = th2.result) ∧
      ((∀ k, acc.acc_malloc k ≠ 0) →
        ((DevSystem.init devCount reqs).run acc sched).dead = false ∧
        ((∃ (t : Nat) (th : DevThread),
            ((DevSystem.init devCount reqs).run acc sched).threads[t]? = some th ∧
            th.pc ≠ Pc.done) →
          ∃ t s1, ((DevSystem.init devCount reqs).run acc sched).step acc t = some s1) ∧
        ∃ sched2,
          ((DevSystem.init devCount reqs).run acc (sched ++ sched2)).dead = false ∧
          ∀ th, th ∈ ((DevSystem.init devCount reqs).run acc (sched ++ sched2)).threads →
            th.pc = .done) := by
  have hinv0 := DevSystem.inv_init_threads devCount reqs hreq
  have hinv := DevSystem.inv_run acc devCount sched _ hinv0
  refine ⟨?_, List.nodup_iff_count_le_one.1 hinv.1.2.1, ?_, ?_, ?_⟩
  · rw [DevSystem.run_requests]
    simp [DevSystem.init, Function.comp_def]
  · intro t th hth hdone
    exact DevSystem.done_of_inv devCount _ hinv t th hth hdone
  · intro t1 t2 th1 th2 h1 h2 hd1 hd2 he
    obtain ⟨d1, hr1, hs1, _⟩ := DevSystem.done_of_inv devCount _ hinv t1 th1 h1 hd1
    obtain ⟨d2, hr2, hs2, _⟩ := DevSystem.done_of_inv devCount _ hinv t2 th2 h2 hd2
    rw [he, hs2] at hs1
    simp only [Option.some.injEq] at hs1
    rw [hr1, hr2, hs1]
  · intro hmalloc
    have hd := DevSystem.run_alive acc devCount hmalloc sched _ hinv0 rfl
    refine ⟨hd, DevSystem.exists_step acc devCount _ hinv hd, ?_⟩
    obtain ⟨sched2, h1, h2⟩ :=
      DevSystem.exists_completion acc devCount hmalloc _ _ hinv hd (Nat.le_refl _)
    exact ⟨sched2, by rw [DevSystem.run_append]; exact h1,
      by rw [DevSystem.run_append]; exact h2⟩

theorem concurrent_device_constructs_once_witness :
    (∀ i, i ∈ [(0 : Int), 0] → inRange 2 i) ∧
      (∀ j, ((DevSystem.init 2 [0, 0]).run exampleAcc raceSchedule).reg.constructed.count j ≤ 1) ∧
      (∀ (t1 t2 : Nat) (th1 th2 : DevThread),
        ((DevSystem.init 2 [0, 0]).run exampleAcc raceSchedule).threads[t1]? = some th1 →
        ((DevSystem.init 2 [0, 0]).run exampleAcc raceSchedule).threads[t2]? = some th2 →
        th1.pc = .done → th2.pc = .done → th1.iDevice = th2.iDevice →
        th1.result = th2.result) :=
  ⟨by decide,
    (concurrent_device_constructs_once exampleAcc 2 [0, 0] raceSchedule (by decide)).2.1,
    (concurrent_device_constructs_once exampleAcc 2 [0, 0] raceSchedule (by decide)).2.2.2.1⟩

end alpaka
